import Mathlib

/-!
# Tempo Explorer — verification of the ingestion-and-aggregation pipeline

Shallow embedding, in Lean 4, of the core of the `tempo-explorer` repository:

* `src/lib/ingestion/block-ingestion.ts` — the block ingestion orchestrator (`ingestBlock`);
* `src/unnamed/part_002` — the transaction normalizer (`transformViemTransaction`),
  the transaction store (`ingestTransactions`), and the stablecoin statistics
  aggregator (`parseReceipt`, `extractTransferAmount`, `isTransferEvent`,
  `calculateStablecoinStats`, `updateStablecoinStats`);
* `src/unnamed/part_000` — the stablecoin detector (`isContract`, `isTIP20Token`,
  `ingestStablecoin`, `checkAndIngestAddress`, `checkAndIngestAddresses`);
* `src/lib/inngest/functions.ts` — the retention sweeper (`cleanupExpiredTransactions`);
* `src/lib/inngest/rate-limit.ts` — `calculateExponentialBackoff`.

Modelling conventions, used throughout:

* JavaScript `bigint` values are modelled as `Int` (arbitrary precision in both).
  Decimal-string serialisation at the persistence boundary (`value.toString()`,
  `BigInt(stored)`) round-trips exactly, so a stored decimal string is modelled
  by the integer it denotes where only its numeric content is ever used.
* Absent (`undefined`) or `null` values are modelled as `none`.
* JavaScript truthiness in `a || b` / `a ? b : c` is modelled explicitly:
  `0n`, `""`, `null`, `undefined` are falsy; see `jsOrInt`, `jsOrStr`,
  `jsOrNullInt`, `jsOrNullStr`.
* The Prisma store is modelled as explicit state passed through the operations:
  association lists keyed by the row's unique key.  `prisma.$transaction`
  executes its operations sequentially and rolls the state back to the initial
  state if any operation fails (all-or-nothing), which is modelled by `Except`
  plus `txnResult`.
* Dynamically typed receipt JSON is embedded at the typed fragment the pipeline
  actually receives (string addresses and topics, bigint gas fields); the
  `typeof` guards of the source collapse non-conforming values to the same
  defaults the model uses for `none`.
-/

/-- JavaScript `a || b` for a possibly absent `bigint` `a` (both `undefined`
and `0n` are falsy). -/
def jsOrInt (v : Option Int) (d : Int) : Int :=
  match v with
  | some x => if x = 0 then d else x
  | none => d

/-- JavaScript `a || b` for a possibly absent string `a` (both `undefined`
and `""` are falsy). -/
def jsOrStr (v : Option String) (d : String) : String :=
  match v with
  | some x => if x = "" then d else x
  | none => d

/-- JavaScript `a || null` for a possibly absent `bigint` `a`. -/
def jsOrNullInt (v : Option Int) : Option Int :=
  match v with
  | some x => if x = 0 then none else some x
  | none => none

/-- JavaScript `a || null` for a possibly absent string `a`. -/
def jsOrNullStr (v : Option String) : Option String :=
  match v with
  | some x => if x = "" then none else some x
  | none => none

/-- JavaScript `String.prototype.toLowerCase` on the ASCII fragment (all the
strings the pipeline lowercases are hex strings/addresses, where the ASCII
lowercasing below agrees with JavaScript). -/
def jsToLowerCase (s : String) : String :=
  String.mk (s.data.map Char.toLower)

/-- Transaction status enum stored in the `transactions.status` column
(`'success' | 'failed'`; absence models the spec's `unknown`). -/
inductive TxStatus where
  | success
  | failed
deriving DecidableEq, Repr

/-- A raw viem transaction, at the typed fragment `transformViemTransaction`
reads (`src/unnamed/part_002`, lines 151–181).  Optional fields model
transaction-type variants that omit them.  `from` and `to` are Lean keywords, hence
`sender` and `toAddr`. -/
structure RawTx where
  hash : String
  sender : String
  toAddr : Option String
  value : Option Int
  input : Option String
  nonce : Int
  gas : Int
  gasPrice : Option Int
deriving DecidableEq, Repr

/-- A raw log entry inside a receipt's `logs` array, at the typed fragment
`parseReceipt` reads (string `address`/`data`, string `topics`). -/
structure RawLog where
  address : String
  topics : List String
  data : String
deriving DecidableEq, Repr

/-- A raw viem transaction receipt, at the typed fragment read by
`transformViemTransaction` and by the aggregator's `parseReceipt`.
Every field is optional: the pipeline must tolerate any subset. -/
structure TransactionReceipt where
  blockNumber : Option Int
  blockHash : Option String
  transactionIndex : Option Int
  gasUsed : Option Int
  effectiveGasPrice : Option Int
  status : Option String
  contractAddress : Option String
  feeToken : Option String
  logs : Option (List RawLog)
deriving DecidableEq, Repr

/-- `TransactionIngestionData` (`src/unnamed/part_002`, lines 21–39): the
normalized transaction record handed to the store. -/
structure TransactionIngestionData where
  hash : String
  sender : String
  toAddr : Option String
  value : Int
  blockNumber : Int
  blockHash : Option String
  transactionIndex : Option Int
  nonce : Int
  input : String
  gas : Int
  gasPrice : Int
  gasUsed : Option Int
  status : Option TxStatus
  contractAddress : Option String
  timestamp : Option Int
  rawTransaction : Option RawTx
  rawReceipt : Option TransactionReceipt
deriving DecidableEq, Repr

/-- `transformViemTransaction` (`src/unnamed/part_002`, lines 151–181): pure,
total normalisation of a raw transaction + optional receipt + optional block
timestamp into a `TransactionIngestionData`.  The `||` defaults of the source
are modelled by the `jsOr*` helpers; `tx` is an object, hence always truthy in
`tx || null`. -/
def transformViemTransaction (tx : RawTx) (receipt : Option TransactionReceipt)
    (blockTimestamp : Option Int) : TransactionIngestionData :=
  { hash := tx.hash
    sender := tx.sender
    toAddr := jsOrNullStr tx.toAddr
    value := jsOrInt tx.value 0
    blockNumber := jsOrInt (receipt.bind (fun r => r.blockNumber)) 0
    blockHash := receipt.bind (fun r => r.blockHash)
    transactionIndex := receipt.bind (fun r => r.transactionIndex)
    nonce := tx.nonce
    input := jsOrStr tx.input ("0x")
    gas := tx.gas
    gasPrice := jsOrInt tx.gasPrice 0
    gasUsed := receipt.bind (fun r => r.gasUsed)
    status :=
      match receipt.bind (fun r => r.status) with
      | some s =>
        if s = "success" then some TxStatus.success
        else if s = "reverted" then some TxStatus.failed
        else none
      | none => none
    contractAddress := jsOrNullStr (receipt.bind (fun r => r.contractAddress))
    timestamp := blockTimestamp
    rawTransaction := some tx
    rawReceipt := receipt }

/-- C6: `transformViemTransaction` is total (it is a Lean function defined for
every input, never failing) and implements the documented defaulting rules:
`input` defaults to `"0x"` when absent, `gasPrice` and `value` default to zero,
`to` defaults to `null`, `blockNumber` is taken from the receipt when present
and is zero otherwise, and receipt status `"success"` maps to `success`,
`"reverted"` to `failed`, anything else (including an absent receipt) to an
absent status. -/
theorem transformViemTransaction_total_defaults
    (tx : RawTx) (receipt : Option TransactionReceipt) (ts : Option Int) :
    (tx.input = none → (transformViemTransaction tx receipt ts).input = "0x") ∧
    (tx.gasPrice = none → (transformViemTransaction tx receipt ts).gasPrice = 0) ∧
    (tx.value = none → (transformViemTransaction tx receipt ts).value = 0) ∧
    (tx.toAddr = none → (transformViemTransaction tx receipt ts).toAddr = none) ∧
    (receipt = none → (transformViemTransaction tx receipt ts).blockNumber = 0) ∧
    (∀ r b, receipt = some r → r.blockNumber = some b →
      (transformViemTransaction tx receipt ts).blockNumber = b) ∧
    (∀ r, receipt = some r → r.status = some "success" →
      (transformViemTransaction tx receipt ts).status = some TxStatus.success) ∧
    (∀ r, receipt = some r → r.status = some "reverted" →
      (transformViemTransaction tx receipt ts).status = some TxStatus.failed) ∧
    (∀ r s, receipt = some r → r.status = some s → s ≠ "success" → s ≠ "reverted" →
      (transformViemTransaction tx receipt ts).status = none) ∧
    (receipt = none → (transformViemTransaction tx receipt ts).status = none) := by
  refine ⟨?_, ?_, ?_, ?_, ?_, ?_, ?_, ?_, ?_, ?_⟩
  · intro h; simp [transformViemTransaction, jsOrStr, h]
  · intro h; simp [transformViemTransaction, jsOrInt, h]
  · intro h; simp [transformViemTransaction, jsOrInt, h]
  · intro h; simp [transformViemTransaction, jsOrNullStr, h]
  · intro h; simp [transformViemTransaction, jsOrInt, h]
  · intro r b hr hb
    subst hr
    by_cases hb0 : b = 0 <;>
      simp [transformViemTransaction, jsOrInt, hb, hb0]
  · intro r hr hs; subst hr; simp [transformViemTransaction, hs]
  · intro r hr hs; subst hr; simp [transformViemTransaction, hs]
  · intro r s hr hs hns hnr
    subst hr
    simp [transformViemTransaction, hs, hns, hnr]
  · intro h; simp [transformViemTransaction, h]

/-- Witness for C6 at a concrete input: a transaction with every optional
field absent and no receipt normalises to the documented defaults. -/
theorem transformViemTransaction_total_defaults_witness :
    (transformViemTransaction
        { hash := "0xaa", sender := "0xbb", toAddr := none, value := none,
          input := none, nonce := 1, gas := 21000, gasPrice := none }
        none none).input = "0x" ∧
    (transformViemTransaction
        { hash := "0xaa", sender := "0xbb", toAddr := none, value := none,
          input := none, nonce := 1, gas := 21000, gasPrice := none }
        none none).blockNumber = 0 := by
  refine ⟨?_, ?_⟩
  · exact (transformViemTransaction_total_defaults
      { hash := "0xaa", sender := "0xbb", toAddr := none, value := none,
        input := none, nonce := 1, gas := 21000, gasPrice := none }
      none none).1 rfl
  · exact (transformViemTransaction_total_defaults
      { hash := "0xaa", sender := "0xbb", toAddr := none, value := none,
        input := none, nonce := 1, gas := 21000, gasPrice := none }
      none none).2.2.2.2.1 rfl

/-! ## Exponential backoff (`src/lib/inngest/rate-limit.ts`, lines 91–103)

`calculateExponentialBackoff` computes
`Math.floor(min(base * 2^attempt + jitter, max))` where
`jitter = Math.random() * 0.3 * (base * 2^attempt)` and `Math.random()` draws
from `[0, 1)`.  The jitter draw is made an explicit parameter.  The arithmetic
is modelled over `ℚ`; every quantity involved in the claimed bounds stays far
below `2^53`, where IEEE-754 doubles are exact enough that the double rounding
of the source cannot cross any of the strict bounds proved below. -/

/-- Default `baseDelayMs` parameter (1000 ms). -/
def backoffBaseDelayMs : ℚ := 1000

/-- Default `maxDelayMs` parameter (60000 ms). -/
def backoffMaxDelayMs : ℚ := 60000

/-- `calculateExponentialBackoff(attemptNumber, baseDelayMs, maxDelayMs)` with
the `Math.random()` draw `jitterDraw` made explicit. -/
def calculateExponentialBackoff (attemptNumber : ℕ) (jitterDraw : ℚ)
    (baseDelayMs maxDelayMs : ℚ) : ℤ :=
  let exponentialDelay : ℚ := baseDelayMs * 2 ^ attemptNumber
  let jitter : ℚ := jitterDraw * (3 / 10) * exponentialDelay
  let delay : ℚ := min (exponentialDelay + jitter) maxDelayMs
  ⌊delay⌋

/-- `calculateExponentialBackoff(attemptNumber)` with the default base delay
(1000 ms) and cap (60000 ms). -/
def calculateExponentialBackoffDefault (attemptNumber : ℕ) (jitterDraw : ℚ) : ℤ :=
  calculateExponentialBackoff attemptNumber jitterDraw backoffBaseDelayMs backoffMaxDelayMs

/-- C9: with default parameters, for every attempt number and every jitter draw
in `[0, 1)`: the delay is at most 60000 ms; at attempt 0 it lies in
`[1000, 1300)` ms; and for each fixed jitter draw the delay is non-decreasing
in the attempt number (hence the expected delay over any distribution of the
jitter draw is non-decreasing in the attempt number). -/
theorem calculateExponentialBackoff_bounds (n : ℕ) (j : ℚ)
    (hj0 : 0 ≤ j) (hj1 : j < 1) :
    calculateExponentialBackoffDefault n j ≤ 60000 ∧
    (1000 ≤ calculateExponentialBackoffDefault 0 j ∧
      calculateExponentialBackoffDefault 0 j < 1300) ∧
    (∀ m, n ≤ m →
      calculateExponentialBackoffDefault n j ≤ calculateExponentialBackoffDefault m j) := by
  have hexp : ∀ k : ℕ, (0:ℚ) < 1000 * 2 ^ k := by
    intro k; positivity
  refine ⟨?_, ⟨?_, ?_⟩, ?_⟩
  · -- ⌊min x 60000⌋ ≤ 60000
    unfold calculateExponentialBackoffDefault calculateExponentialBackoff
      backoffBaseDelayMs backoffMaxDelayMs
    have h : min (1000 * 2 ^ n + j * (3 / 10) * (1000 * 2 ^ n)) 60000 ≤ (60000 : ℚ) :=
      min_le_right _ _
    calc ⌊min (1000 * 2 ^ n + j * (3 / 10) * (1000 * 2 ^ n)) (60000:ℚ)⌋
        ≤ ⌊(60000:ℚ)⌋ := Int.floor_le_floor h
      _ = 60000 := by norm_num
  · -- attempt 0: 1000 ≤ ⌊1000 + 300 j⌋
    simp only [calculateExponentialBackoffDefault, calculateExponentialBackoff,
      backoffBaseDelayMs, backoffMaxDelayMs]
    have hval : min (1000 * 2 ^ (0:ℕ) + j * (3 / 10) * (1000 * 2 ^ (0:ℕ))) (60000:ℚ)
        = 1000 + j * 300 := by
      rw [min_eq_left] <;> nlinarith
    rw [hval]
    have : (1000 : ℚ) ≤ 1000 + j * 300 := by nlinarith
    exact Int.le_floor.mpr (by exact_mod_cast this)
  · -- attempt 0: ⌊1000 + 300 j⌋ < 1300
    simp only [calculateExponentialBackoffDefault, calculateExponentialBackoff,
      backoffBaseDelayMs, backoffMaxDelayMs]
    have hval : min (1000 * 2 ^ (0:ℕ) + j * (3 / 10) * (1000 * 2 ^ (0:ℕ))) (60000:ℚ)
        = 1000 + j * 300 := by
      rw [min_eq_left] <;> nlinarith
    rw [hval]
    have : (1000 : ℚ) + j * 300 < 1300 := by nlinarith
    exact Int.floor_lt.mpr (by exact_mod_cast this)
  · -- monotone in the attempt number for a fixed jitter draw
    intro m hnm
    unfold calculateExponentialBackoffDefault calculateExponentialBackoff
      backoffBaseDelayMs backoffMaxDelayMs
    apply Int.floor_le_floor
    apply min_le_min _ le_rfl
    have hpow : (2:ℚ) ^ n ≤ 2 ^ m := by
      apply pow_le_pow_right₀ (by norm_num) hnm
    nlinarith [hexp n, hexp m, hpow]

/-- Witness for C9 at attempt 2 with jitter draw 1/2. -/
theorem calculateExponentialBackoff_bounds_witness :
    calculateExponentialBackoffDefault 2 (1/2) ≤ 60000 ∧
    1000 ≤ calculateExponentialBackoffDefault 0 (1/2) := by
  have h := calculateExponentialBackoff_bounds 2 (1/2) (by norm_num) (by norm_num)
  exact ⟨h.1, h.2.1.1⟩

/-! ## Block identifier parsing (`src/lib/ingestion/block-ingestion.ts`, lines 43–67)

`ingestBlock` parses `blockId` with `Number(blockId)`; when the result is not
`NaN` and `>= 0` it sets `blockNumber = BigInt(blockNum)`, otherwise a string
starting with `"0x"` is kept as `blockHash`, and anything else throws the
invalid-identifier error.  The fetch then dispatches on the *truthiness* of
`blockNumber` (`blockNumber ? getBlock({blockNumber}) : getBlock({blockHash})`),
so `BigInt(0)` — which is falsy — falls into the hash branch with `blockHash`
still `undefined`.

`Number(string)` is modelled on the fragment exercised by the pipeline's
identifiers: whitespace trimming, the empty string (`0`), `0x`/`0b`/`0o`
radix literals, and optionally signed decimal strings with an optional
fractional part.  Exponent notation and `Infinity` are outside the fragment.
Values are kept exact in `ℚ`; JavaScript rounds magnitudes above `2^53` to the
nearest double, which changes only the numeric value of the `byNumber` branch,
never which branch is taken. -/

/-- JavaScript `String.prototype.startsWith`. -/
def jsStartsWith (s p : String) : Bool :=
  p.data.isPrefixOf s.data

/-- JavaScript `String.prototype.trim` (ASCII-whitespace fragment). -/
def jsTrim (s : String) : String :=
  String.mk (((s.data.dropWhile Char.isWhitespace).reverse.dropWhile Char.isWhitespace).reverse)

/-- Value of one hexadecimal digit character. -/
def hexDigitVal? (c : Char) : Option ℕ :=
  if '0' ≤ c ∧ c ≤ '9' then some (c.toNat - Char.toNat '0')
  else if 'a' ≤ c ∧ c ≤ 'f' then some (c.toNat - Char.toNat 'a' + 10)
  else if 'A' ≤ c ∧ c ≤ 'F' then some (c.toNat - Char.toNat 'A' + 10)
  else none

/-- Parses a non-empty digit string in the given radix (≤ 16); `none` when any
character is not a digit of that radix. -/
def radixVal? (radix : ℕ) (cs : List Char) : Option ℕ :=
  if cs = [] then none
  else
    cs.foldl
      (fun acc c =>
        match acc, hexDigitVal? c with
        | some a, some d => if d < radix then some (radix * a + d) else none
        | _, _ => none)
      (some 0)

/-- Value of a decimal digit string (the characters are assumed checked). -/
def digitsToNat (cs : List Char) : ℕ :=
  cs.foldl (fun a c => 10 * a + (c.toNat - Char.toNat '0')) 0

/-- A decimal JavaScript number body: digits with an optional fractional part
(`"1"`, `"1."`, `".5"`, `"1.5"`); `none` models `NaN`. -/
def jsDecimal? (cs : List Char) : Option ℚ :=
  match cs.splitOn '.' with
  | [ip] =>
    if ip ≠ [] ∧ ip.all Char.isDigit then some (digitsToNat ip) else none
  | [ip, fp] =>
    if ip.all Char.isDigit ∧ fp.all Char.isDigit ∧ (ip ≠ [] ∨ fp ≠ []) then
      some ((digitsToNat ip : ℚ) + (digitsToNat fp : ℚ) / (10 : ℚ) ^ fp.length)
    else none
  | _ => none

/-- JavaScript `Number(string)` on the modelled fragment; `none` is `NaN`. -/
def jsNumber (s : String) : Option ℚ :=
  let t := (jsTrim s).data
  if t = [] then some 0
  else if List.isPrefixOf ['0', 'x'] t ∨ List.isPrefixOf ['0', 'X'] t then
    (radixVal? 16 (t.drop 2)).map (fun n => (n : ℚ))
  else if List.isPrefixOf ['0', 'b'] t ∨ List.isPrefixOf ['0', 'B'] t then
    (radixVal? 2 (t.drop 2)).map (fun n => (n : ℚ))
  else if List.isPrefixOf ['0', 'o'] t ∨ List.isPrefixOf ['0', 'O'] t then
    (radixVal? 8 (t.drop 2)).map (fun n => (n : ℚ))
  else if t.head? = some '-' then (jsDecimal? (t.drop 1)).map (fun q => -q)
  else if t.head? = some '+' then jsDecimal? (t.drop 1)
  else jsDecimal? t

/-- The fetch a call to `ingestBlock(blockId)` performs after parsing the
identifier (or the error it throws instead). -/
inductive FetchAction where
  | byNumber (blockNumber : ℤ)
  | byHash (blockHash : Option String)
  | invalidIdError
  | rangeError
deriving DecidableEq, Repr

/-- The identifier-parsing and dispatch prefix of `ingestBlock`
(`src/lib/ingestion/block-ingestion.ts`, lines 43–67): `Number(blockId)`,
the `>= 0` check, `BigInt(blockNum)` (which throws a `RangeError` on a
non-integral number), the `startsWith('0x')` fallback, and the
truthiness-based choice between fetching by number and fetching by hash. -/
def ingestBlockFetchAction (blockId : String) : FetchAction :=
  match jsNumber blockId with
  | some blockNum =>
    if 0 ≤ blockNum then
      if blockNum.den = 1 then
        if blockNum.num = 0 then FetchAction.byHash none
        else FetchAction.byNumber blockNum.num
      else FetchAction.rangeError
    else if jsStartsWith blockId ("0x") then FetchAction.byHash (some blockId)
    else FetchAction.invalidIdError
  | none =>
    if jsStartsWith blockId ("0x") then FetchAction.byHash (some blockId)
    else FetchAction.invalidIdError

/-- C1 (code bug): the identifier parsing contradicts the documented contract.
`"0"` is a non-negative integer string, but `BigInt(0)` is falsy, so the code
fetches through the *hash* branch with an `undefined` hash instead of fetching
block number 0.  A `"0x"`-prefixed hex string (every real block hash is one)
parses as a number via `Number`'s hex-literal syntax, so it is fetched as a
block *number* rather than by hash. -/
theorem ingestBlock_identifier_dispatch_code_bug :
    ingestBlockFetchAction ("0") = FetchAction.byHash none ∧
    ingestBlockFetchAction ("0x3e8") = FetchAction.byNumber 1000 ∧
    (∃ n : ℤ, ingestBlockFetchAction
        ("0xddf252ad1be2c89b69c2b068fc378daa952ba7f163c4a11628f55a4df523b3ef")
        = FetchAction.byNumber n) := by
  refine ⟨by decide, by decide, ⟨0xddf252ad1be2c89b69c2b068fc378daa952ba7f163c4a11628f55a4df523b3ef, by decide⟩⟩

/-! ## Stablecoin statistics aggregator (`src/unnamed/part_002`, lines 183–399)

`calculateStablecoinStats` first reads the set of known stablecoin addresses
from the store; that read is made an explicit `knownAddresses` argument here,
so the aggregation itself is the pure read-then-compute function of the source.
The mutable `stats` object keyed by address is modelled as an association list
whose entries are created (in `Set`-iteration order, i.e. first-occurrence
order) by the initialisation loop and updated in place. -/

/-- `TRANSFER_EVENT_SIGNATURE` (`keccak256("Transfer(address,address,uint256)")`). -/
def TRANSFER_EVENT_SIGNATURE : String :=
  "0xddf252ad1be2c89b69c2b068fc378daa952ba7f163c4a11628f55a4df523b3ef"

/-- `LogEntry`: a log after `parseReceipt`'s normalisation. -/
structure LogEntry where
  address : String
  topics : List String
  data : String
deriving DecidableEq, Repr

/-- `ParsedReceipt`: the fields `parseReceipt` extracts. -/
structure ParsedReceipt where
  feeToken : Option String
  gasUsed : Option Int
  effectiveGasPrice : Option Int
  logs : Option (List LogEntry)
deriving DecidableEq, Repr

/-- `parseReceipt` (`src/unnamed/part_002`, lines 232–270): defensive
extraction from a raw receipt.  `feeToken` is kept (lowercased) only when
truthy; a non-string `feeToken` becomes `null` in the source and, like `null`,
never matches a known stablecoin, so it is collapsed to `none` here.  `gasUsed`
and `effectiveGasPrice` are carried over when present; log addresses are
lowercased, topics stringified, data kept. -/
def parseReceipt (rawReceipt : TransactionReceipt) : ParsedReceipt :=
  { feeToken :=
      match rawReceipt.feeToken with
      | some s => if s = "" then none else some (jsToLowerCase s)
      | none => none
    gasUsed := rawReceipt.gasUsed
    effectiveGasPrice := rawReceipt.effectiveGasPrice
    logs := rawReceipt.logs.map (List.map (fun log =>
      { address := jsToLowerCase log.address
        topics := log.topics
        data := log.data })) }

/-- `extractTransferAmount` (`src/unnamed/part_002`, lines 280–295): the
transfer amount is `BigInt('0x' + data.slice(2).slice(0, 64))`; a missing,
`"0x"`, or short (< 66 characters) data field yields `null`, as does a parse
failure (non-hex characters), which the source catches. -/
def extractTransferAmount (log : LogEntry) : Option Int :=
  if log.data = "" ∨ log.data = "0x" ∨ log.data.length < 66 then none
  else (radixVal? 16 ((log.data.data.drop 2).take 64)).map (fun n => (n : ℤ))

/-- `isTransferEvent` (`src/unnamed/part_002`, lines 300–312): the log's
(lowercased) address must be a known stablecoin and its first topic must equal
the Transfer event signature, compared lowercased on both sides. -/
def isTransferEvent (log : LogEntry) (stablecoinAddresses : List String) : Bool :=
  if ¬ (stablecoinAddresses.contains (jsToLowerCase log.address)) then false
  else
    match log.topics with
    | [] => false
    | t :: _ => jsToLowerCase t == jsToLowerCase TRANSFER_EVENT_SIGNATURE

/-- `StablecoinBlockStats`: per-stablecoin counters for one batch. -/
structure StablecoinBlockStats where
  address : String
  transferCount : ℕ
  transferVolume : Int
  feePaymentCount : ℕ
  feeVolume : Int
deriving DecidableEq, Repr

/-- `BlockStablecoinStats`: the per-address stats mapping, keyed by address. -/
abbrev BlockStablecoinStats : Type :=
  List (String × StablecoinBlockStats)

/-- Lookup in a stats mapping (`stats[address]`): the first entry keyed by the
address, if any. -/
def statsFind? (stats : BlockStablecoinStats) (address : String) :
    Option StablecoinBlockStats :=
  match stats with
  | [] => none
  | p :: rest => if p.1 = address then some p.2 else statsFind? rest address

/-- Truthiness of `stats[address]` (present entries are objects, hence truthy). -/
def statsHas (stats : BlockStablecoinStats) (address : String) : Bool :=
  stats.any (fun p => p.1 == address)

/-- In-place update of `stats[address]`. -/
def statsUpdate (stats : BlockStablecoinStats) (address : String)
    (f : StablecoinBlockStats → StablecoinBlockStats) : BlockStablecoinStats :=
  stats.map (fun p => if p.1 = address then (p.1, f p.2) else p)

/-- First-occurrence-order deduplication: JavaScript `Array.from(new Set(l))`. -/
def dedupFirstAux (seen : List String) : List String → List String
  | [] => []
  | a :: as =>
    if seen.contains a then dedupFirstAux seen as
    else a :: dedupFirstAux (a :: seen) as

/-- `Array.from(new Set(l))`. -/
def dedupFirst (l : List String) : List String :=
  dedupFirstAux [] l

/-- The initialisation loop of `calculateStablecoinStats`: one zeroed entry per
known stablecoin address. -/
def initStats (addresses : List String) : BlockStablecoinStats :=
  addresses.map (fun a =>
    (a, { address := a, transferCount := 0, transferVolume := 0,
          feePaymentCount := 0, feeVolume := 0 }))

/-- The Transfer-event half of `calculateStablecoinStats`'s per-log body
(`src/unnamed/part_002`, lines 359–369): on a Transfer event from a known
stablecoin, and only when an amount was extracted and the stats entry exists,
increment the transfer count and add the amount to the transfer volume. -/
def processLog (stablecoinAddresses : List String) (stats : BlockStablecoinStats)
    (log : LogEntry) : BlockStablecoinStats :=
  if isTransferEvent log stablecoinAddresses then
    let stablecoinAddress := jsToLowerCase log.address
    match extractTransferAmount log with
    | some amount =>
      if statsHas stats stablecoinAddress then
        statsUpdate stats stablecoinAddress (fun s =>
          { s with transferCount := s.transferCount + 1,
                   transferVolume := s.transferVolume + amount })
      else stats
    | none => stats
  else stats

/-- The fee-payment half of `calculateStablecoinStats`'s per-receipt body
(`src/unnamed/part_002`, lines 372–385). -/
def processFee (stablecoinAddresses : List String) (stats : BlockStablecoinStats)
    (receipt : ParsedReceipt) : BlockStablecoinStats :=
  match receipt.feeToken with
  | some feeToken =>
    if feeToken ≠ "" ∧ stablecoinAddresses.contains feeToken ∧ (statsHas stats feeToken) = true then
      let bumped := statsUpdate stats feeToken (fun s =>
        { s with feePaymentCount := s.feePaymentCount + 1 })
      match receipt.gasUsed, receipt.effectiveGasPrice with
      | some gasUsed, some effectiveGasPrice =>
        if gasUsed ≠ 0 ∧ effectiveGasPrice ≠ 0 then
          statsUpdate bumped feeToken (fun s =>
            { s with feeVolume := s.feeVolume + gasUsed * effectiveGasPrice })
        else bumped
      | _, _ => bumped
    else stats
  | none => stats

/-- One iteration of `calculateStablecoinStats`'s receipt loop: `continue` on
a null receipt, else parse and process logs then the fee payment. -/
def processReceipt (stablecoinAddresses : List String)
    (stats : BlockStablecoinStats) (rawReceipt : Option TransactionReceipt) :
    BlockStablecoinStats :=
  match rawReceipt with
  | none => stats
  | some raw =>
    let receipt := parseReceipt raw
    let stats1 :=
      match receipt.logs with
      | some logs => logs.foldl (processLog stablecoinAddresses) stats
      | none => stats
    processFee stablecoinAddresses stats1 receipt

/-- The final pruning loop: drop entries with no activity in this batch. -/
def pruneStats (stats : BlockStablecoinStats) : BlockStablecoinStats :=
  stats.filter (fun p => ¬ (p.2.transferCount = 0 ∧ p.2.feePaymentCount = 0))

/-- `calculateStablecoinStats` (`src/unnamed/part_002`, lines 321–399), with
the store read made explicit: `knownAddresses` is the address column of the
`stablecoins` table at call time. -/
def calculateStablecoinStats (knownAddresses : List String)
    (receipts : List (Option TransactionReceipt)) : BlockStablecoinStats :=
  let stablecoinAddresses := dedupFirst (knownAddresses.map jsToLowerCase)
  if stablecoinAddresses.isEmpty then []
  else
    pruneStats (receipts.foldl (processReceipt stablecoinAddresses)
      (initStats stablecoinAddresses))

/-- A successful stats lookup implies the truthiness check passes. -/
theorem statsHas_of_statsFind? {stats : BlockStablecoinStats} {a : String}
    {s : StablecoinBlockStats} (h : statsFind? stats a = some s) :
    statsHas stats a = true := by
  induction stats with
  | nil => simp [statsFind?] at h
  | cons p rest ih =>
    simp only [statsFind?] at h
    by_cases hp : p.1 = a
    · simp [statsHas, hp]
    · rw [if_neg hp] at h
      have hr := ih h
      simp only [statsHas, List.any_cons] at hr ⊢
      simp [hr]

/-- Updating an address rewrites exactly that entry of the mapping. -/
theorem statsFind?_update_self (stats : BlockStablecoinStats) (a : String)
    (f : StablecoinBlockStats → StablecoinBlockStats) :
    statsFind? (statsUpdate stats a f) a = (statsFind? stats a).map f := by
  induction stats with
  | nil => rfl
  | cons p rest ih =>
    by_cases hp : p.1 = a
    · simp [statsUpdate, statsFind?, hp]
    · simp only [statsUpdate, List.map_cons, if_neg hp, statsFind?] at ih ⊢
      exact ih

/-- Updating an address leaves every other entry of the mapping unchanged. -/
theorem statsFind?_update_ne (stats : BlockStablecoinStats) (a b : String)
    (hne : b ≠ a) (f : StablecoinBlockStats → StablecoinBlockStats) :
    statsFind? (statsUpdate stats a f) b = statsFind? stats b := by
  induction stats with
  | nil => rfl
  | cons p rest ih =>
    by_cases hp : p.1 = a
    · have hpb : p.1 ≠ b := by rw [hp]; exact Ne.symm hne
      simp only [statsUpdate, List.map_cons, if_pos hp, statsFind?, if_neg hpb] at ih ⊢
      exact ih
    · by_cases hq : p.1 = b
      · simp [statsUpdate, statsFind?, hp, hq, hne]
      · simp only [statsUpdate, List.map_cons, if_neg hp, statsFind?, if_neg hq] at ih ⊢
        exact ih

/-- C2 (amended): for a log classified as a stablecoin Transfer event, the
transfer count and the transfer volume are updated *only when* an amount was
extracted from the log's data — then the count rises by one and the volume by
the extracted amount, leaving every other address untouched; when the data
field is malformed or short no amount is extracted and the stats are entirely
unchanged (the pass never aborts: `processLog` is a total function). -/
theorem calculateStablecoinStats_transfer_amended
    (S : List String) (stats : BlockStablecoinStats) (log : LogEntry)
    (hT : isTransferEvent log S = true) :
    (extractTransferAmount log = none → processLog S stats log = stats) ∧
    (∀ a s, extractTransferAmount log = some a →
      statsFind? stats (jsToLowerCase log.address) = some s →
      statsFind? (processLog S stats log) (jsToLowerCase log.address)
        = some { s with transferCount := s.transferCount + 1,
                        transferVolume := s.transferVolume + a } ∧
      (∀ b, b ≠ jsToLowerCase log.address →
        statsFind? (processLog S stats log) b = statsFind? stats b)) := by
  constructor
  · intro hnone
    simp [processLog, hT, hnone]
  · intro a s ha hs
    have hhas : statsHas stats (jsToLowerCase log.address) = true :=
      statsHas_of_statsFind? hs
    constructor
    · simp only [processLog, hT, if_true, ha, hhas, if_pos rfl]
      rw [statsFind?_update_self, hs]
      rfl
    · intro b hb
      simp only [processLog, hT, if_true, ha, hhas, if_pos rfl]
      exact statsFind?_update_ne _ _ _ hb _

/-- Witness for C2's amended theorem: a Transfer log from a known stablecoin
with the spec's example data (`"0x" + "0"*56 + "000003e8"`) extracts amount
1000 and bumps that stablecoin's entry from zero to count 1, volume 1000. -/
theorem calculateStablecoinStats_transfer_amended_witness :
    statsFind?
      (processLog ["0xaa"] (initStats ["0xaa"])
        { address := "0xaa", topics := [TRANSFER_EVENT_SIGNATURE],
          data := "0x00000000000000000000000000000000000000000000000000000000000003e8" })
      ("0xaa")
      = some { address := "0xaa", transferCount := 1, transferVolume := 1000,
               feePaymentCount := 0, feeVolume := 0 } := by
  have h := (calculateStablecoinStats_transfer_amended ["0xaa"] (initStats ["0xaa"])
    { address := "0xaa", topics := [TRANSFER_EVENT_SIGNATURE],
      data := "0x00000000000000000000000000000000000000000000000000000000000003e8" }
    (by decide)).2 1000
    { address := "0xaa", transferCount := 0, transferVolume := 0,
      feePaymentCount := 0, feeVolume := 0 }
    (by decide) (by decide)
  exact h.1

/-- C2 (counterexample): a Transfer-classified log from a known stablecoin
whose data field is `"0x"` (no extractable amount).  The claim requires the
transfer count to rise by one regardless; the code leaves it at zero. -/
theorem calculateStablecoinStats_transfer_count_counterexample :
    isTransferEvent
      { address := "0xaa", topics := [TRANSFER_EVENT_SIGNATURE], data := "0x" }
      ["0xaa"] = true ∧
    extractTransferAmount
      { address := "0xaa", topics := [TRANSFER_EVENT_SIGNATURE], data := "0x" }
      = none ∧
    (statsFind?
        (processLog ["0xaa"] (initStats ["0xaa"])
          { address := "0xaa", topics := [TRANSFER_EVENT_SIGNATURE], data := "0x" })
        ("0xaa")).map (fun s => s.transferCount) = some 0 := by
  exact ⟨by decide, by decide, by decide⟩

/-! ## Case invariance of the aggregator (C10) -/

/-- Two strings that differ only in upper/lower case (ASCII fragment). -/
def lcEq (s t : String) : Prop :=
  jsToLowerCase s = jsToLowerCase t

/-- Topic lists that differ at most in the case of the *first* topic. -/
def topicsCaseEquiv : List String → List String → Prop
  | [], [] => True
  | t1 :: r1, t2 :: r2 => lcEq t1 t2 ∧ r1 = r2
  | _, _ => False

/-- Raw logs that differ only in the case of the address or first topic. -/
def logCaseEquiv (l1 l2 : RawLog) : Prop :=
  lcEq l1.address l2.address ∧ topicsCaseEquiv l1.topics l2.topics ∧ l1.data = l2.data

/-- Optional strings that differ only in case. -/
def optCaseEquiv : Option String → Option String → Prop
  | none, none => True
  | some s, some t => lcEq s t
  | _, _ => False

/-- Optional log lists related pointwise by `logCaseEquiv`. -/
def logsCaseEquiv : Option (List RawLog) → Option (List RawLog) → Prop
  | none, none => True
  | some l1, some l2 => List.Forall₂ logCaseEquiv l1 l2
  | _, _ => False

/-- Receipts that differ only in the case of log addresses, of the `feeToken`
field, or of the first topic of a log (all other fields equal). -/
def receiptCaseEquiv (r1 r2 : TransactionReceipt) : Prop :=
  r1.blockNumber = r2.blockNumber ∧ r1.blockHash = r2.blockHash ∧
  r1.transactionIndex = r2.transactionIndex ∧ r1.gasUsed = r2.gasUsed ∧
  r1.effectiveGasPrice = r2.effectiveGasPrice ∧ r1.status = r2.status ∧
  r1.contractAddress = r2.contractAddress ∧
  optCaseEquiv r1.feeToken r2.feeToken ∧ logsCaseEquiv r1.logs r2.logs

/-- Optional receipts related by `receiptCaseEquiv`. -/
def optReceiptCaseEquiv : Option TransactionReceipt → Option TransactionReceipt → Prop
  | none, none => True
  | some r1, some r2 => receiptCaseEquiv r1 r2
  | _, _ => False

/-- Parsed logs with equal (already lowercased) addresses and data and
case-equivalent first topics. -/
def parsedLogCaseEquiv (l1 l2 : LogEntry) : Prop :=
  l1.address = l2.address ∧ topicsCaseEquiv l1.topics l2.topics ∧ l1.data = l2.data

/-- Lowercasing kills only the empty string. -/
theorem jsToLowerCase_eq_empty {t : String} (h : jsToLowerCase t = "") : t = "" := by
  cases t with
  | mk d =>
    have hd : List.map Char.toLower d = [] := congrArg String.data h
    cases d with
    | nil => rfl
    | cons c cs => simp at hd

/-- `isTransferEvent` only looks at the address and the lowercased first
topic, so it respects `parsedLogCaseEquiv`. -/
theorem isTransferEvent_congr (S : List String) {l1 l2 : LogEntry}
    (h : parsedLogCaseEquiv l1 l2) :
    isTransferEvent l1 S = isTransferEvent l2 S := by
  obtain ⟨ha, ht, _⟩ := h
  unfold isTransferEvent
  rw [ha]
  cases h1 : l1.topics with
  | nil =>
    cases h2 : l2.topics with
    | nil => rfl
    | cons t2 r2 => rw [h1, h2] at ht; simp [topicsCaseEquiv] at ht
  | cons t1 r1 =>
    cases h2 : l2.topics with
    | nil => rw [h1, h2] at ht; simp [topicsCaseEquiv] at ht
    | cons t2 r2 =>
      rw [h1, h2] at ht
      have : jsToLowerCase t1 = jsToLowerCase t2 := ht.1
      simp [this]

/-- `processLog` respects `parsedLogCaseEquiv`. -/
theorem processLog_congr (S : List String) (stats : BlockStablecoinStats)
    {l1 l2 : LogEntry} (h : parsedLogCaseEquiv l1 l2) :
    processLog S stats l1 = processLog S stats l2 := by
  obtain ⟨ha, ht, hd⟩ := h
  unfold processLog
  rw [isTransferEvent_congr S ⟨ha, ht, hd⟩, ha]
  unfold extractTransferAmount
  rw [hd]

/-- Folding `processLog` over pointwise case-equivalent parsed logs gives the
same stats. -/
theorem foldl_processLog_congr (S : List String) :
    ∀ {ls1 ls2 : List LogEntry}, List.Forall₂ parsedLogCaseEquiv ls1 ls2 →
    ∀ stats, ls1.foldl (processLog S) stats = ls2.foldl (processLog S) stats := by
  intro ls1 ls2 h
  induction h with
  | nil => intro stats; rfl
  | cons hrel hrest ih =>
    intro stats
    simp only [List.foldl_cons]
    rw [processLog_congr S stats hrel]
    exact ih _

/-- `processFee` only reads the fee token and gas fields. -/
theorem processFee_congr (S : List String) (stats : BlockStablecoinStats)
    {p1 p2 : ParsedReceipt} (h1 : p1.feeToken = p2.feeToken)
    (h2 : p1.gasUsed = p2.gasUsed)
    (h3 : p1.effectiveGasPrice = p2.effectiveGasPrice) :
    processFee S stats p1 = processFee S stats p2 := by
  unfold processFee
  rw [h1, h2, h3]

/-- Case-equivalent raw log lists parse to pointwise case-equivalent logs. -/
theorem forall2_map_parsedLog {l1 l2 : List RawLog}
    (h : List.Forall₂ logCaseEquiv l1 l2) :
    List.Forall₂ parsedLogCaseEquiv
      (l1.map (fun log => { address := jsToLowerCase log.address,
                            topics := log.topics, data := log.data }))
      (l2.map (fun log => { address := jsToLowerCase log.address,
                            topics := log.topics, data := log.data })) := by
  induction h with
  | nil => exact List.Forall₂.nil
  | cons hx hxs ihx =>
    refine List.Forall₂.cons ⟨?_, hx.2.1, hx.2.2⟩ ihx
    exact hx.1

/-- `parseReceipt` maps case-equivalent receipts to parsed receipts with equal
fee token and gas fields and pointwise case-equivalent logs. -/
theorem parseReceipt_congr {r1 r2 : TransactionReceipt} (h : receiptCaseEquiv r1 r2) :
    (parseReceipt r1).feeToken = (parseReceipt r2).feeToken ∧
    (parseReceipt r1).gasUsed = (parseReceipt r2).gasUsed ∧
    (parseReceipt r1).effectiveGasPrice = (parseReceipt r2).effectiveGasPrice ∧
    (match (parseReceipt r1).logs, (parseReceipt r2).logs with
      | none, none => True
      | some l1, some l2 => List.Forall₂ parsedLogCaseEquiv l1 l2
      | _, _ => False) := by
  obtain ⟨-, -, -, hgas, hegp, -, -, hfee, hlogs⟩ := h
  refine ⟨?_, ?_, ?_, ?_⟩
  · cases hf1 : r1.feeToken with
    | none =>
      cases hf2 : r2.feeToken with
      | none => simp [parseReceipt, hf1, hf2]
      | some t => rw [hf1, hf2] at hfee; exact (hfee : False).elim
    | some s =>
      cases hf2 : r2.feeToken with
      | none => rw [hf1, hf2] at hfee; exact (hfee : False).elim
      | some t =>
        rw [hf1, hf2] at hfee
        have hst : jsToLowerCase s = jsToLowerCase t := hfee
        by_cases hs : s = ""
        · have : t = "" := by
            apply jsToLowerCase_eq_empty
            rw [← hst, hs]
            rfl
          simp [parseReceipt, hf1, hf2, hs, this]
        · have htne : t ≠ "" := by
            intro hteq
            apply hs
            apply jsToLowerCase_eq_empty
            rw [hst, hteq]
            rfl
          simp [parseReceipt, hf1, hf2, hs, htne, hst]
  · simp [parseReceipt, hgas]
  · simp [parseReceipt, hegp]
  · cases hl1 : r1.logs with
    | none =>
      cases hl2 : r2.logs with
      | none => simp [parseReceipt, hl1, hl2]
      | some l2 => rw [hl1, hl2] at hlogs; exact (hlogs : False).elim
    | some l1 =>
      cases hl2 : r2.logs with
      | none => rw [hl1, hl2] at hlogs; exact (hlogs : False).elim
      | some l2 =>
        rw [hl1, hl2] at hlogs
        simp only [parseReceipt, hl1, hl2, Option.map_some]
        exact forall2_map_parsedLog hlogs

/-- `processReceipt` respects `optReceiptCaseEquiv`. -/
theorem processReceipt_congr (S : List String) (stats : BlockStablecoinStats)
    {o1 o2 : Option TransactionReceipt} (h : optReceiptCaseEquiv o1 o2) :
    processReceipt S stats o1 = processReceipt S stats o2 := by
  cases o1 with
  | none =>
    cases o2 with
    | none => rfl
    | some r2 => exact (h : False).elim
  | some r1 =>
    cases o2 with
    | none => exact (h : False).elim
    | some r2 =>
      obtain ⟨hfee, hgas, hegp, hlogs⟩ := parseReceipt_congr (h : receiptCaseEquiv r1 r2)
      simp only [processReceipt]
      cases hl1 : (parseReceipt r1).logs with
      | none =>
        cases hl2 : (parseReceipt r2).logs with
        | none => exact processFee_congr S _ hfee hgas hegp
        | some l2 => rw [hl1, hl2] at hlogs; exact (hlogs : False).elim
      | some l1 =>
        cases hl2 : (parseReceipt r2).logs with
        | none => rw [hl1, hl2] at hlogs; exact (hlogs : False).elim
        | some l2 =>
          rw [hl1, hl2] at hlogs
          show processFee S (List.foldl (processLog S) stats l1) (parseReceipt r1)
            = processFee S (List.foldl (processLog S) stats l2) (parseReceipt r2)
          rw [foldl_processLog_congr S (hlogs : List.Forall₂ parsedLogCaseEquiv l1 l2) stats]
          exact processFee_congr S _ hfee hgas hegp

/-- C10: `calculateStablecoinStats` is invariant under hexadecimal letter case
in the input receipts: receipt lists that differ only in the case of log
addresses, of the `feeToken` field, or of the first topic of a log yield
identical stats mappings (in particular an uppercase-hex Transfer signature
topic still classifies the log as a Transfer event, both comparison sides
being lowercased). -/
theorem calculateStablecoinStats_case_invariant (knownAddresses : List String)
    {receipts1 receipts2 : List (Option TransactionReceipt)}
    (h : List.Forall₂ optReceiptCaseEquiv receipts1 receipts2) :
    calculateStablecoinStats knownAddresses receipts1
      = calculateStablecoinStats knownAddresses receipts2 := by
  simp only [calculateStablecoinStats]
  have hfold : ∀ stats,
      receipts1.foldl (processReceipt (dedupFirst (knownAddresses.map jsToLowerCase))) stats
        = receipts2.foldl (processReceipt (dedupFirst (knownAddresses.map jsToLowerCase))) stats := by
    induction h with
    | nil => intro stats; rfl
    | cons hrel hrest ih =>
      intro stats
      simp only [List.foldl_cons]
      rw [processReceipt_congr _ stats hrel]
      exact ih _
  rw [hfold]

/-- A receipt with only the aggregator-relevant fields set, for concrete
examples. -/
def mkStatsReceipt (feeToken : Option String) (gasUsed effectiveGasPrice : Option Int)
    (logs : Option (List RawLog)) : TransactionReceipt :=
  { blockNumber := none
    blockHash := none
    transactionIndex := none
    gasUsed := gasUsed
    effectiveGasPrice := effectiveGasPrice
    status := none
    contractAddress := none
    feeToken := feeToken
    logs := logs }

/-- Witness for C10: one receipt whose Transfer log has an uppercase-hex
signature topic and address produces the same stats as its lowercased twin —
the uppercase topic still classifies as a Transfer event. -/
theorem calculateStablecoinStats_case_invariant_witness :
    calculateStablecoinStats ["0xaa"]
      [some (mkStatsReceipt none none none (some
        [⟨"0xAA",
          ["0xDDF252AD1BE2C89B69C2B068FC378DAA952BA7F163C4A11628F55A4DF523B3EF"],
          "0x00000000000000000000000000000000000000000000000000000000000003e8"⟩]))]
      = calculateStablecoinStats ["0xaa"]
      [some (mkStatsReceipt none none none (some
        [⟨"0xaa", [TRANSFER_EVENT_SIGNATURE],
          "0x00000000000000000000000000000000000000000000000000000000000003e8"⟩]))] := by
  apply calculateStablecoinStats_case_invariant
  refine List.Forall₂.cons ?_ List.Forall₂.nil
  refine ⟨rfl, rfl, rfl, rfl, rfl, rfl, rfl, trivial, ?_⟩
  refine List.Forall₂.cons ⟨?_, ⟨?_, rfl⟩, rfl⟩ List.Forall₂.nil
  · show jsToLowerCase ("0xAA") = jsToLowerCase ("0xaa")
    decide
  · show jsToLowerCase
        ("0xDDF252AD1BE2C89B69C2B068FC378DAA952BA7F163C4A11628F55A4DF523B3EF")
      = jsToLowerCase TRANSFER_EVENT_SIGNATURE
    decide

/-! ## Stablecoin detector (`src/unnamed/part_000`)

The chain data source consumed by the detector (`getCode`, `readContract` for
`decimals()`/`symbol()`/`totalSupply()`) is modelled as a deterministic oracle.
A `none` result models both an absent value and a failed call — the source
attaches `.catch(() => null)` / `catch` blocks that collapse the two.  The
`stablecoins` table is an association list keyed by the (lowercase) address;
Prisma's unique constraint on `address` corresponds to first-match lookup. -/

/-- One row of the `stablecoins` table.  Counter columns carry the schema
defaults (`0`) at creation; volume columns are stored as decimal strings whose
numeric content is modelled by the integer. -/
structure StablecoinRow where
  firstSeenBlock : Option Int
  firstSeenTimestamp : Option Int
  transferCount : Int
  transferVolume : Int
  feePaymentCount : Int
  feeVolume : Int
  lastActivityBlock : Option Int
deriving DecidableEq, Repr

/-- The `stablecoins` table, keyed by unique lowercase address. -/
abbrev StablecoinTable : Type :=
  List (String × StablecoinRow)

/-- `prisma.stablecoin.findUnique({ where: { address } })`. -/
def scFind? (tbl : StablecoinTable) (address : String) : Option StablecoinRow :=
  match tbl with
  | [] => none
  | p :: rest => if p.1 = address then some p.2 else scFind? rest address

/-- The deterministic chain-data oracle used by the detector.  `none` models
"no value": an absent result or an individually failed (caught) call. -/
structure ChainOracle where
  getCode : String → Option String
  decimals : String → Option Nat
  symbol : String → Option String
  totalSupply : String → Option Int

/-- `isAlreadyKnown` (`src/unnamed/part_000`, lines 46–51). -/
def isAlreadyKnown (tbl : StablecoinTable) (address : String) : Bool :=
  (scFind? tbl (jsToLowerCase address)).isSome

/-- `isContract` (`src/unnamed/part_000`, lines 56–68): the account must have
code (`getCode` succeeded, not empty, not `"0x"`) of at least 3 bytes, i.e.
`(code.length - 2) / 2 >= 3`. -/
def isContract (o : ChainOracle) (address : String) : Bool :=
  match o.getCode address with
  | none => false
  | some code =>
    if code = "" ∨ code = "0x" then false
    else decide (3 ≤ (code.length - 2) / 2)

/-- `isTIP20Token` (`src/unnamed/part_000`, lines 74–103): all three of
`decimals()`, `symbol()`, `totalSupply()` must produce a value; each call is
individually fault-tolerant (`.catch(() => null)`). -/
def isTIP20Token (o : ChainOracle) (address : String) : Bool :=
  (o.decimals address).isSome && (o.symbol address).isSome && (o.totalSupply address).isSome

/-- The row `ingestStablecoin` creates: supplied first-seen block,
`blockTimestamp || null` for the timestamp, schema defaults elsewhere. -/
def newStablecoinRow (blockNumber : Int) (blockTimestamp : Option Int) : StablecoinRow :=
  { firstSeenBlock := some blockNumber
    firstSeenTimestamp := jsOrNullInt blockTimestamp
    transferCount := 0
    transferVolume := 0
    feePaymentCount := 0
    feeVolume := 0
    lastActivityBlock := none }

/-- `ingestStablecoin` (`src/unnamed/part_000`, lines 109–133): `create`, with
a unique-constraint conflict (`P2002`) swallowed as a successful no-op. -/
def ingestStablecoin (tbl : StablecoinTable) (address : String)
    (blockNumber : Int) (blockTimestamp : Option Int) : StablecoinTable :=
  if (scFind? tbl (jsToLowerCase address)).isSome then tbl
  else tbl ++ [(jsToLowerCase address, newStablecoinRow blockNumber blockTimestamp)]

/-- The all-zero address rejected by the detector. -/
def zeroAddress : String :=
  "0x0000000000000000000000000000000000000000"

/-- `checkAndIngestAddress` (`src/unnamed/part_000`, lines 139–170): the
short-circuiting detection pipeline, returning whether a new stablecoin was
recorded together with the resulting table state. -/
def checkAndIngestAddress (o : ChainOracle) (tbl : StablecoinTable)
    (address : String) (blockNumber : Int) (blockTimestamp : Option Int) :
    Bool × StablecoinTable :=
  let normalizedAddress := jsToLowerCase address
  if normalizedAddress = zeroAddress then (false, tbl)
  else if isAlreadyKnown tbl normalizedAddress then (false, tbl)
  else if ¬ isContract o normalizedAddress then (false, tbl)
  else if ¬ isTIP20Token o normalizedAddress then (false, tbl)
  else (true, ingestStablecoin tbl normalizedAddress blockNumber blockTimestamp)

/-- One step of the candidate fold: check one address from the current table
state, counting a successful ingestion. -/
def detectStep (o : ChainOracle) (blockNumber : Int) (blockTimestamp : Option Int)
    (acc : Nat × StablecoinTable) (addr : String) : Nat × StablecoinTable :=
  let r := checkAndIngestAddress o acc.2 addr blockNumber blockTimestamp
  (acc.1 + (if r.1 then 1 else 0), r.2)

/-- `checkAndIngestAddresses` (`src/unnamed/part_000`, lines 179–214):
deduplicate the lowercased candidates preserving first occurrence (JS `Set`
order), strip the zero address, then process the candidates, counting newly
ingested stablecoins.  The source issues the per-address checks in concurrency
batches of 10 over distinct addresses; each address's store effect is a single
conditional insert of its own key, so the batch is modelled by sequential
processing, which yields the same table and count. -/
def checkAndIngestAddresses (o : ChainOracle) (tbl : StablecoinTable)
    (addresses : List String) (blockNumber : Int) (blockTimestamp : Option Int) :
    Nat × StablecoinTable :=
  let uniqueAddresses :=
    (dedupFirst (addresses.map jsToLowerCase)).filter (fun a => a ≠ zeroAddress)
  uniqueAddresses.foldl (detectStep o blockNumber blockTimestamp) (0, tbl)

/-- `Char.toLower` is idempotent: lowering an uppercase letter lands outside
the uppercase range. -/
theorem Char_toLower_toLower (c : Char) : c.toLower.toLower = c.toLower := by
  unfold Char.toLower
  by_cases h : c.toNat ≥ 65 ∧ c.toNat ≤ 90
  · rw [if_pos h]
    have hv : (c.toNat + 32).isValidChar := Or.inl (by omega)
    have ht : (Char.ofNat (c.toNat + 32)).toNat = c.toNat + 32 := by
      unfold Char.ofNat
      rw [dif_pos hv]
      rfl
    rw [ht]
    rw [if_neg (by omega)]
  · rw [if_neg h]
    exact if_neg h

/-- `toLowerCase` is idempotent. -/
theorem jsToLowerCase_idem (s : String) : jsToLowerCase (jsToLowerCase s) = jsToLowerCase s := by
  unfold jsToLowerCase
  apply congrArg
  rw [List.map_map]
  apply List.map_congr_left
  intro c _
  exact Char_toLower_toLower c

/-- C5 (amended): `checkAndIngestAddress` returns `false` and writes nothing
whenever the lowercased address is the zero address, a record already exists,
the code is absent/failed or shorter than 3 bytes (`isContract` is false
exactly when no code of length ≥ 8 hex characters was returned), or not all
three of `decimals()`/`symbol()`/`totalSupply()` produced a value.  Only when
all checks pass does it append exactly one record — with the supplied
`firstSeenBlock`, and the supplied `firstSeenTimestamp` except that an absent
or zero timestamp is stored as `null` — and return `true`. -/
theorem checkAndIngestAddress_guards (o : ChainOracle) (tbl : StablecoinTable)
    (address : String) (bn : Int) (ts : Option Int) :
    (jsToLowerCase address = zeroAddress →
      checkAndIngestAddress o tbl address bn ts = (false, tbl)) ∧
    (isAlreadyKnown tbl (jsToLowerCase address) = true →
      checkAndIngestAddress o tbl address bn ts = (false, tbl)) ∧
    (isContract o (jsToLowerCase address) = false →
      checkAndIngestAddress o tbl address bn ts = (false, tbl)) ∧
    (isTIP20Token o (jsToLowerCase address) = false →
      checkAndIngestAddress o tbl address bn ts = (false, tbl)) ∧
    (isContract o (jsToLowerCase address) = true ↔
      ∃ code, o.getCode (jsToLowerCase address) = some code ∧ 8 ≤ code.length) ∧
    (isTIP20Token o (jsToLowerCase address) = true ↔
      (o.decimals (jsToLowerCase address)).isSome = true ∧
      (o.symbol (jsToLowerCase address)).isSome = true ∧
      (o.totalSupply (jsToLowerCase address)).isSome = true) ∧
    (jsToLowerCase address ≠ zeroAddress →
      isAlreadyKnown tbl (jsToLowerCase address) = false →
      isContract o (jsToLowerCase address) = true →
      isTIP20Token o (jsToLowerCase address) = true →
      checkAndIngestAddress o tbl address bn ts =
        (true, tbl ++ [(jsToLowerCase address, newStablecoinRow bn ts)])) := by
  refine ⟨?_, ?_, ?_, ?_, ?_, ?_, ?_⟩
  · intro h; simp [checkAndIngestAddress, h]
  · intro h; simp [checkAndIngestAddress, h]
  · intro h; simp only [checkAndIngestAddress]
    by_cases h0 : jsToLowerCase address = zeroAddress
    · simp [h0]
    · by_cases h1 : isAlreadyKnown tbl (jsToLowerCase address) <;> simp [h0, h1, h]
  · intro h; simp only [checkAndIngestAddress]
    by_cases h0 : jsToLowerCase address = zeroAddress
    · simp [h0]
    · by_cases h1 : isAlreadyKnown tbl (jsToLowerCase address)
      · simp [h0, h1]
      · by_cases h2 : isContract o (jsToLowerCase address) <;> simp [h0, h1, h2, h]
  · constructor
    · intro h
      unfold isContract at h
      cases hc : o.getCode (jsToLowerCase address) with
      | none => rw [hc] at h; exact Bool.noConfusion h
      | some code =>
        rw [hc] at h
        have hm : (if code = "" ∨ code = "0x" then false
            else decide (3 ≤ (code.length - 2) / 2)) = true := h
        by_cases he : code = "" ∨ code = "0x"
        · rw [if_pos he] at hm
          exact Bool.noConfusion hm
        · rw [if_neg he] at hm
          have h3 : 3 ≤ (code.length - 2) / 2 := of_decide_eq_true hm
          refine ⟨code, rfl, ?_⟩
          omega
    · rintro ⟨code, hc, hlen⟩
      unfold isContract
      rw [hc]
      have he : ¬ (code = "" ∨ code = "0x") := by
        rintro (rfl | rfl)
        · exact absurd hlen (by decide)
        · exact absurd hlen (by decide)
      show (if code = "" ∨ code = "0x" then false
          else decide (3 ≤ (code.length - 2) / 2)) = true
      rw [if_neg he]
      exact decide_eq_true (by omega)
  · unfold isTIP20Token
    simp [Bool.and_eq_true, and_assoc]
  · intro h0 h1 h2 h3
    have hnone : (scFind? tbl (jsToLowerCase address)).isSome = false := by
      have h1x := h1
      unfold isAlreadyKnown at h1x
      rwa [jsToLowerCase_idem] at h1x
    simp only [checkAndIngestAddress, if_neg h0, h1, h2, h3]
    simp only [Bool.false_eq_true, if_false, not_true, ite_self]
    simp only [ingestStablecoin, jsToLowerCase_idem, hnone]
    simp

/-- Witness for C5's amended theorem, covering the spec's detection tests:
an address with 2 bytes of bytecode is rejected with no write; an address with
5 bytes of bytecode exposing only `decimals()` and `symbol()` (no
`totalSupply()`) is rejected with no write. -/
theorem checkAndIngestAddress_guards_witness :
    checkAndIngestAddress
        { getCode := fun _ => some ("0x6060"), decimals := fun _ => some 6,
          symbol := fun _ => some ("PUSD"), totalSupply := fun _ => some 1000000 }
        [] ("0xab") 5 (some 7) = (false, []) ∧
    checkAndIngestAddress
        { getCode := fun _ => some ("0x6060604052"), decimals := fun _ => some 6,
          symbol := fun _ => some ("PUSD"), totalSupply := fun _ => none }
        [] ("0xab") 5 (some 7) = (false, []) := by
  constructor
  · exact (checkAndIngestAddress_guards
      { getCode := fun _ => some ("0x6060"), decimals := fun _ => some 6,
        symbol := fun _ => some ("PUSD"), totalSupply := fun _ => some 1000000 }
      [] ("0xab") 5 (some 7)).2.2.1 (by decide)
  · exact (checkAndIngestAddress_guards
      { getCode := fun _ => some ("0x6060604052"), decimals := fun _ => some 6,
        symbol := fun _ => some ("PUSD"), totalSupply := fun _ => none }
      [] ("0xab") 5 (some 7)).2.2.2.1 (by decide)

/-- C5 (counterexample): a fully passing detection with supplied block
timestamp `0` creates the record and returns `true`, but stores
`firstSeenTimestamp = null` rather than the supplied `0`
(`blockTimestamp || null` treats `0n` as falsy), contradicting "creates
exactly one stablecoin record with the supplied
firstSeenBlock/firstSeenTimestamp". -/
theorem checkAndIngestAddress_timestamp_counterexample :
    (checkAndIngestAddress
        { getCode := fun _ => some ("0x606060"), decimals := fun _ => some 6,
          symbol := fun _ => some ("PUSD"), totalSupply := fun _ => some 1000000 }
        [] ("0xab") 5 (some 0)).1 = true ∧
    ((scFind?
        (checkAndIngestAddress
          { getCode := fun _ => some ("0x606060"), decimals := fun _ => some 6,
            symbol := fun _ => some ("PUSD"), totalSupply := fun _ => some 1000000 }
          [] ("0xab") 5 (some 0)).2 ("0xab")).map
        (fun r => r.firstSeenTimestamp)) = some none := by
  constructor
  · decide
  · decide

/-! ## Transaction store (`src/unnamed/part_002`, lines 44–145)

One row of the `transactions` table holds exactly the fields the upsert's
`update`/`create` branches write; both branches write identical values (the
`create` branch additionally sets the key itself), so a single `rowOfRecord`
describes them.  `prisma.$transaction([...upserts])` executes the upserts
sequentially and rolls everything back if any of them fails; whether an
individual upsert fails (a storage error) is modelled by an explicit `fail`
oracle over the record. -/

/-- One row of the `transactions` table, as written by `ingestTransaction(s)`.
`value`/`gasPrice` are stored as decimal strings; `rawTransaction`/`rawReceipt`
store JSON snapshots whose bigints were stringified (`serializeForJson` is
injective on the modelled fragment, so the snapshot is modelled by the raw
object itself). -/
structure TxRow where
  blockNumber : Int
  blockHash : Option String
  transactionIndex : Option Int
  sender : String
  toAddr : Option String
  value : String
  input : String
  nonce : Int
  gas : Int
  gasPrice : String
  gasUsed : Option Int
  status : Option TxStatus
  contractAddress : Option String
  timestamp : Option Int
  rawTransaction : Option RawTx
  rawReceipt : Option TransactionReceipt
deriving DecidableEq, Repr

/-- The row the upsert writes for a record (the shared `update`/`create`
payload of `ingestTransactions`, `src/unnamed/part_002`, lines 105–141). -/
def rowOfRecord (tx : TransactionIngestionData) : TxRow :=
  { blockNumber := tx.blockNumber
    blockHash := jsOrNullStr tx.blockHash
    transactionIndex := tx.transactionIndex
    sender := tx.sender
    toAddr := tx.toAddr
    value := toString tx.value
    input := tx.input
    nonce := tx.nonce
    gas := tx.gas
    gasPrice := toString tx.gasPrice
    gasUsed := jsOrNullInt tx.gasUsed
    status := tx.status
    contractAddress := jsOrNullStr tx.contractAddress
    timestamp := jsOrNullInt tx.timestamp
    rawTransaction := tx.rawTransaction
    rawReceipt := tx.rawReceipt }

/-- The `transactions` table, keyed by unique `hash`. -/
abbrev TxTable : Type :=
  List (String × TxRow)

/-- `prisma.transaction.upsert({ where: { hash } })`: replace the row keyed by
the record's hash if present, else insert it. -/
def upsertTransactionRow (tbl : TxTable) (tx : TransactionIngestionData) : TxTable :=
  if tbl.any (fun p => p.1 == tx.hash) then
    tbl.map (fun p => if p.1 = tx.hash then (p.1, rowOfRecord tx) else p)
  else tbl ++ [(tx.hash, rowOfRecord tx)]

/-- Sequential execution of the batched upserts; `none` when some upsert's
storage operation failed mid-batch. -/
def runUpserts (fail : TransactionIngestionData → Bool) (tbl : TxTable) :
    List TransactionIngestionData → Option TxTable
  | [] => some tbl
  | tx :: rest =>
    if fail tx then none
    else runUpserts fail (upsertTransactionRow tbl tx) rest

/-- `ingestTransactions` (`src/unnamed/part_002`, lines 97–145): all upserts
in one `prisma.$transaction`; a failure aborts the batch and propagates. -/
def ingestTransactions (fail : TransactionIngestionData → Bool) (tbl : TxTable)
    (transactions : List TransactionIngestionData) : Except Unit TxTable :=
  match runUpserts fail tbl transactions with
  | some t => Except.ok t
  | none => Except.error ()

/-- The table the caller observes after a `prisma.$transaction`: the new state
on success, the *initial* state on failure (rollback). -/
def txnResult {α : Type} (init : α) : Except Unit α → α
  | Except.ok t => t
  | Except.error _ => init

/-- A batch whose upserts all succeed folds them over the table in order. -/
theorem runUpserts_ok (fail : TransactionIngestionData → Bool) :
    ∀ (ts : List TransactionIngestionData) (t : TxTable),
    (∀ tx ∈ ts, fail tx = false) →
    runUpserts fail t ts = some (ts.foldl upsertTransactionRow t) := by
  intro ts
  induction ts with
  | nil => intro t _; rfl
  | cons x rest ih =>
    intro t hall
    have hx : fail x = false := hall x (List.mem_cons_self x rest)
    simp only [runUpserts, hx, Bool.false_eq_true, if_false, List.foldl_cons]
    exact ih _ (fun tx htx => hall tx (List.mem_cons_of_mem x htx))

/-- A batch containing a failing upsert aborts. -/
theorem runUpserts_err (fail : TransactionIngestionData → Bool) :
    ∀ (ts : List TransactionIngestionData) (t : TxTable),
    (∃ tx ∈ ts, fail tx = true) → runUpserts fail t ts = none := by
  intro ts
  induction ts with
  | nil =>
    intro t h
    obtain ⟨tx, htx, -⟩ := h
    exact absurd htx (List.not_mem_nil tx)
  | cons x rest ih =>
    intro t h
    by_cases hx : fail x = true
    · simp [runUpserts, hx]
    · obtain ⟨tx, htx, hf⟩ := h
      have hxf : fail x = false := Bool.eq_false_iff.mpr hx
      simp only [runUpserts, hxf, Bool.false_eq_true, if_false]
      apply ih
      rcases List.mem_cons.mp htx with rfl | hmem
      · exact absurd hf hx
      · exact ⟨tx, hmem, hf⟩

/-- C4: the batch upsert is all-or-nothing.  If every upsert succeeds the
result applies all of them in order; if any upsert in the batch fails, the
call propagates the error and the observable table is exactly the initial
one — no partial commit. -/
theorem ingestTransactions_atomic (fail : TransactionIngestionData → Bool)
    (tbl : TxTable) (txs : List TransactionIngestionData) :
    ((∀ tx ∈ txs, fail tx = false) →
      ingestTransactions fail tbl txs
        = Except.ok (txs.foldl upsertTransactionRow tbl)) ∧
    ((∃ tx ∈ txs, fail tx = true) →
      ingestTransactions fail tbl txs = Except.error () ∧
      txnResult tbl (ingestTransactions fail tbl txs) = tbl) := by
  constructor
  · intro hall
    unfold ingestTransactions
    rw [runUpserts_ok fail txs tbl hall]
  · intro hex
    unfold ingestTransactions
    rw [runUpserts_err fail txs tbl hex]
    exact ⟨rfl, rfl⟩

/-- Witness for C4, matching the spec's batch-atomicity test: with three
records of which the second fails, the batch errors and the observable table
is the untouched initial table (none of the three rows persisted). -/
theorem ingestTransactions_atomic_witness :
    ingestTransactions (fun tx => tx.hash == "0xb2")
        []
        [transformViemTransaction
          { hash := "0xb1", sender := "0xs", toAddr := none, value := none,
            input := none, nonce := 0, gas := 1, gasPrice := none } none none,
         transformViemTransaction
          { hash := "0xb2", sender := "0xs", toAddr := none, value := none,
            input := none, nonce := 1, gas := 1, gasPrice := none } none none,
         transformViemTransaction
          { hash := "0xb3", sender := "0xs", toAddr := none, value := none,
            input := none, nonce := 2, gas := 1, gasPrice := none } none none]
      = Except.error () ∧
    txnResult []
        (ingestTransactions (fun tx => tx.hash == "0xb2")
          []
          [transformViemTransaction
            { hash := "0xb1", sender := "0xs", toAddr := none, value := none,
              input := none, nonce := 0, gas := 1, gasPrice := none } none none,
           transformViemTransaction
            { hash := "0xb2", sender := "0xs", toAddr := none, value := none,
              input := none, nonce := 1, gas := 1, gasPrice := none } none none,
           transformViemTransaction
            { hash := "0xb3", sender := "0xs", toAddr := none, value := none,
              input := none, nonce := 2, gas := 1, gasPrice := none } none none])
      = [] := by
  apply (ingestTransactions_atomic (fun tx => tx.hash == "0xb2") [] _).2
  refine ⟨transformViemTransaction
    { hash := "0xb2", sender := "0xs", toAddr := none, value := none,
      input := none, nonce := 1, gas := 1, gasPrice := none } none none, ?_, ?_⟩
  · exact List.mem_cons_of_mem _ (List.mem_cons_self _ _)
  · decide

/-! ## Persisting aggregated statistics (`src/unnamed/part_002`, lines 408–453)

`updateStablecoinStats` first reads the current volumes of all touched
stablecoins in one query (`findMany` + `currentMap`), precomputes each
address's new absolute volume strings, and then runs one `prisma.update` per
address inside a single `$transaction`: count columns via atomic increments,
volume columns as absolute writes of the precomputed totals,
`lastActivityBlock` set to the ingested block.  `prisma.update` of a missing
address fails (`P2025`), aborting and rolling back the whole transaction. -/

/-- The payload of one `prisma.stablecoin.update` issued by
`updateStablecoinStats`: increments for the count columns, precomputed
absolute values for the volume columns. -/
structure StatUpdate where
  address : String
  countInc : Int
  newTransferVolume : Int
  feeCountInc : Int
  newFeeVolume : Int
  lastActivityBlock : Int
deriving DecidableEq, Repr

/-- Builds the update for one stats entry: current volumes are read from the
table state at call time (`BigInt(current?.transferVolume || '0')`, the
`currentMap` lookup being keyed by the lowercased address), and the batch
deltas are added. -/
def mkStatUpdate (tbl : StablecoinTable) (blockNumber : Int)
    (stat : StablecoinBlockStats) : StatUpdate :=
  let current := scFind? tbl (jsToLowerCase stat.address)
  let currentTransferVolume : Int :=
    match current with
    | some r => r.transferVolume
    | none => 0
  let currentFeeVolume : Int :=
    match current with
    | some r => r.feeVolume
    | none => 0
  { address := stat.address
    countInc := (stat.transferCount : Int)
    newTransferVolume := currentTransferVolume + stat.transferVolume
    feeCountInc := (stat.feePaymentCount : Int)
    newFeeVolume := currentFeeVolume + stat.feeVolume
    lastActivityBlock := blockNumber }

/-- The row rewrite performed by one update: count columns incremented, volume
columns written absolutely, `lastActivityBlock` set; first-seen columns are
not in the update's data and stay untouched. -/
def statRowUpdate (u : StatUpdate) (r : StablecoinRow) : StablecoinRow :=
  { r with
    transferCount := r.transferCount + u.countInc
    transferVolume := u.newTransferVolume
    feePaymentCount := r.feePaymentCount + u.feeCountInc
    feeVolume := u.newFeeVolume
    lastActivityBlock := some u.lastActivityBlock }

/-- One `prisma.stablecoin.update({ where: { address } })`: `none` models the
`P2025` failure when no row has that address. -/
def applyStatUpdate (tbl : StablecoinTable) (u : StatUpdate) :
    Option StablecoinTable :=
  if (scFind? tbl u.address).isSome then
    some (tbl.map (fun p =>
      if p.1 = u.address then (p.1, statRowUpdate u p.2) else p))
  else none

/-- Sequential execution of the updates inside the `$transaction`. -/
def runStatUpdates (tbl : StablecoinTable) : List StatUpdate → Option StablecoinTable
  | [] => some tbl
  | u :: rest =>
    match applyStatUpdate tbl u with
    | some t => runStatUpdates t rest
    | none => none

/-- `updateStablecoinStats` (`src/unnamed/part_002`, lines 408–453). -/
def updateStablecoinStats (tbl : StablecoinTable) (stats : BlockStablecoinStats)
    (blockNumber : Int) : Except Unit StablecoinTable :=
  if stats.isEmpty then Except.ok tbl
  else
    let updates := (stats.map Prod.snd).map (mkStatUpdate tbl blockNumber)
    match runStatUpdates tbl updates with
    | some t => Except.ok t
    | none => Except.error ()

/-- The per-row invariant of C7: first-seen metadata intact, counters not
decreased. -/
def rowPreserved (r0 r : StablecoinRow) : Prop :=
  r.firstSeenBlock = r0.firstSeenBlock ∧
  r.firstSeenTimestamp = r0.firstSeenTimestamp ∧
  r0.transferCount ≤ r.transferCount ∧
  r0.transferVolume ≤ r.transferVolume ∧
  r0.feePaymentCount ≤ r.feePaymentCount ∧
  r0.feeVolume ≤ r.feeVolume

/-- `rowPreserved` is reflexive. -/
theorem rowPreserved_refl (r : StablecoinRow) : rowPreserved r r :=
  ⟨rfl, rfl, le_refl _, le_refl _, le_refl _, le_refl _⟩

/-- `rowPreserved` composes. -/
theorem rowPreserved_trans {r0 r1 r2 : StablecoinRow}
    (h1 : rowPreserved r0 r1) (h2 : rowPreserved r1 r2) : rowPreserved r0 r2 :=
  ⟨h2.1.trans h1.1, h2.2.1.trans h1.2.1, h1.2.2.1.trans h2.2.2.1,
   h1.2.2.2.1.trans h2.2.2.2.1, h1.2.2.2.2.1.trans h2.2.2.2.2.1,
   h1.2.2.2.2.2.trans h2.2.2.2.2.2⟩

/-- In-place map of one key rewrites exactly that entry (stablecoin table). -/
theorem scFind?_map_self (tbl : StablecoinTable) (a : String)
    (f : StablecoinRow → StablecoinRow) :
    scFind? (tbl.map (fun p => if p.1 = a then (p.1, f p.2) else p)) a
      = (scFind? tbl a).map f := by
  induction tbl with
  | nil => rfl
  | cons p rest ih =>
    by_cases hp : p.1 = a
    · simp [scFind?, hp]
    · simp only [List.map_cons, if_neg hp, scFind?] at ih ⊢
      exact ih

/-- In-place map of one key leaves the other entries unchanged. -/
theorem scFind?_map_ne (tbl : StablecoinTable) (a b : String) (hne : b ≠ a)
    (f : StablecoinRow → StablecoinRow) :
    scFind? (tbl.map (fun p => if p.1 = a then (p.1, f p.2) else p)) b
      = scFind? tbl b := by
  induction tbl with
  | nil => rfl
  | cons p rest ih =>
    by_cases hp : p.1 = a
    · have hpb : p.1 ≠ b := by rw [hp]; exact Ne.symm hne
      simp only [List.map_cons, if_pos hp, scFind?, if_neg hpb] at ih ⊢
      exact ih
    · simp only [List.map_cons, if_neg hp, scFind?] at ih ⊢
      by_cases hq : p.1 = b
      · rw [if_pos hq, if_pos hq]
      · rw [if_neg hq, if_neg hq]
        exact ih

/-- A lookup in a prefix survives appending. -/
theorem scFind?_append_left {tbl : StablecoinTable} {a : String}
    {r : StablecoinRow} (h : scFind? tbl a = some r) (l2 : StablecoinTable) :
    scFind? (tbl ++ l2) a = some r := by
  induction tbl with
  | nil => simp [scFind?] at h
  | cons p rest ih =>
    simp only [scFind?, List.cons_append] at h ⊢
    by_cases hp : p.1 = a
    · rw [if_pos hp] at h ⊢; exact h
    · rw [if_neg hp] at h ⊢; exact ih h

/-- Sequential stat updates with non-negative count increments, volume writes
that do not regress the current row, and distinct addresses preserve every
row's first-seen metadata and never decrease its counters. -/
theorem runStatUpdates_preserves (us : List StatUpdate) :
    ∀ (t result : StablecoinTable),
    (∀ u ∈ us, 0 ≤ u.countInc ∧ 0 ≤ u.feeCountInc ∧
      (∀ r, scFind? t u.address = some r →
        r.transferVolume ≤ u.newTransferVolume ∧ r.feeVolume ≤ u.newFeeVolume)) →
    (us.map (fun u => u.address)).Nodup →
    runStatUpdates t us = some result →
    ∀ a r0, scFind? t a = some r0 →
      ∃ r, scFind? result a = some r ∧ rowPreserved r0 r := by
  induction us with
  | nil =>
    intro t result _ _ hrun a r0 h0
    simp only [runStatUpdates, Option.some.injEq] at hrun
    subst hrun
    exact ⟨r0, h0, rowPreserved_refl r0⟩
  | cons u rest ih =>
    intro t result hcond hnd hrun a r0 h0
    simp only [runStatUpdates] at hrun
    cases happ : applyStatUpdate t u with
    | none => rw [happ] at hrun; exact absurd hrun (by simp)
    | some t1 =>
      rw [happ] at hrun
      have hu := hcond u (List.mem_cons_self u rest)
      unfold applyStatUpdate at happ
      by_cases hk : (scFind? t u.address).isSome = true
      · rw [if_pos hk, Option.some.injEq] at happ
        subst happ
        have hstep : ∃ r1,
            scFind? (t.map (fun p =>
              if p.1 = u.address then (p.1, statRowUpdate u p.2) else p)) a
              = some r1 ∧ rowPreserved r0 r1 := by
          by_cases ha : a = u.address
          · subst ha
            rw [scFind?_map_self, h0]
            refine ⟨_, rfl, rfl, rfl, ?_, ?_, ?_, ?_⟩
            · exact le_add_of_nonneg_right hu.1
            · exact (hu.2.2 r0 h0).1
            · exact le_add_of_nonneg_right hu.2.1
            · exact (hu.2.2 r0 h0).2
          · rw [scFind?_map_ne t u.address a ha]
            exact ⟨r0, h0, rowPreserved_refl r0⟩
        obtain ⟨r1, h1, hp1⟩ := hstep
        have hnd' := (List.nodup_cons.mp hnd).2
        have hcond' : ∀ v ∈ rest, 0 ≤ v.countInc ∧ 0 ≤ v.feeCountInc ∧
            (∀ r, scFind? (t.map (fun p =>
                if p.1 = u.address then (p.1, statRowUpdate u p.2) else p))
                v.address = some r →
              r.transferVolume ≤ v.newTransferVolume ∧
              r.feeVolume ≤ v.newFeeVolume) := by
          intro v hv
          have hvc := hcond v (List.mem_cons_of_mem u hv)
          refine ⟨hvc.1, hvc.2.1, ?_⟩
          intro r hr
          have hvne : v.address ≠ u.address := by
            intro he
            have hmem : v.address ∈ rest.map (fun w => w.address) :=
              List.mem_map_of_mem (fun w => w.address) hv
            rw [he] at hmem
            exact (List.nodup_cons.mp hnd).1 hmem
          rw [scFind?_map_ne t u.address v.address hvne] at hr
          exact hvc.2.2 r hr
        obtain ⟨r, hres, hp2⟩ := ih _ result hcond' hnd' hrun a r1 h1
        exact ⟨r, hres, rowPreserved_trans hp1 hp2⟩
      · rw [if_neg hk] at happ
        exact absurd happ (by simp)

/-- C7: operations on the stablecoin store preserve the record invariant.
`updateStablecoinStats` — with the deltas produced by the aggregator:
non-negative volumes, lowercase distinct addresses — keeps `firstSeenBlock`
and `firstSeenTimestamp` of every existing row unchanged and never decreases
`transferCount`, `transferVolume`, `feePaymentCount` or `feeVolume` (count
columns get non-negative atomic increments, volume columns get
current-plus-non-negative-delta writes); and `ingestStablecoin` only ever
creates new rows, leaving every existing row untouched. -/
theorem stablecoinStore_invariants :
    (∀ (tbl : StablecoinTable) (stats : BlockStablecoinStats) (bn : Int),
      (∀ s ∈ stats.map Prod.snd, jsToLowerCase s.address = s.address) →
      (∀ s ∈ stats.map Prod.snd, 0 ≤ s.transferVolume ∧ 0 ≤ s.feeVolume) →
      ((stats.map Prod.snd).map (fun s => s.address)).Nodup →
      ∀ a r0, scFind? tbl a = some r0 →
        ∃ r, scFind? (txnResult tbl (updateStablecoinStats tbl stats bn)) a = some r ∧
          rowPreserved r0 r) ∧
    (∀ (tbl : StablecoinTable) (address : String) (bn : Int) (ts : Option Int)
        (a : String) (r : StablecoinRow), scFind? tbl a = some r →
      scFind? (ingestStablecoin tbl address bn ts) a = some r) := by
  constructor
  · intro tbl stats bn hlc hnn hnd a r0 h0
    unfold updateStablecoinStats
    by_cases hemp : stats.isEmpty
    · simp only [hemp, if_true, txnResult]
      exact ⟨r0, h0, rowPreserved_refl r0⟩
    · simp only [hemp, Bool.false_eq_true, if_false]
      cases hrun : runStatUpdates tbl ((stats.map Prod.snd).map (mkStatUpdate tbl bn)) with
      | none => simp only [txnResult]; exact ⟨r0, h0, rowPreserved_refl r0⟩
      | some t =>
        simp only [txnResult]
        refine runStatUpdates_preserves _ tbl t ?_ ?_ hrun a r0 h0
        · intro u hu
          obtain ⟨s, hs, rfl⟩ := List.mem_map.mp hu
          refine ⟨Int.natCast_nonneg _, Int.natCast_nonneg _, ?_⟩
          intro r hr
          have haddr : (mkStatUpdate tbl bn s).address = s.address := rfl
          rw [haddr] at hr
          have hcur : scFind? tbl (jsToLowerCase s.address) = some r := by
            rw [hlc s hs]; exact hr
          constructor
          · show r.transferVolume ≤
              (match scFind? tbl (jsToLowerCase s.address) with
                | some r => r.transferVolume
                | none => 0) + s.transferVolume
            rw [hcur]
            exact le_add_of_nonneg_right (hnn s hs).1
          · show r.feeVolume ≤
              (match scFind? tbl (jsToLowerCase s.address) with
                | some r => r.feeVolume
                | none => 0) + s.feeVolume
            rw [hcur]
            exact le_add_of_nonneg_right (hnn s hs).2
        · have : ((stats.map Prod.snd).map (mkStatUpdate tbl bn)).map
              (fun u => u.address) = (stats.map Prod.snd).map (fun s => s.address) := by
            rw [List.map_map]
            rfl
          rw [this]
          exact hnd
  · intro tbl address bn ts a r h
    unfold ingestStablecoin
    by_cases hk : (scFind? tbl (jsToLowerCase address)).isSome = true
    · rw [if_pos hk]; exact h
    · rw [if_neg hk]; exact scFind?_append_left h _

/-- A concrete stablecoin row for the C7 witness. -/
def sampleScRow : StablecoinRow :=
  ⟨some 3, some 9, 2, 50, 1, 7, some 3⟩

/-- A concrete per-block stats entry for the C7 witness. -/
def sampleScStat : StablecoinBlockStats :=
  ⟨"0xaa", 1, 1000, 0, 0⟩

/-- Witness for C7: a concrete table and aggregator-shaped stats — the updated
row keeps its first-seen metadata and its counters do not decrease; and
re-ingesting an existing address leaves its row untouched. -/
theorem stablecoinStore_invariants_witness :
    (∃ r, scFind?
        (txnResult [("0xaa", sampleScRow)]
          (updateStablecoinStats [("0xaa", sampleScRow)] [("0xaa", sampleScStat)] 12))
        ("0xaa") = some r ∧
      rowPreserved sampleScRow r) ∧
    scFind? (ingestStablecoin [("0xaa", sampleScRow)] ("0xAA") 99 (some 100)) ("0xaa")
      = some sampleScRow := by
  constructor
  · exact stablecoinStore_invariants.1
      [("0xaa", sampleScRow)] [("0xaa", sampleScStat)] 12
      (by decide) (by decide) (by decide) ("0xaa") sampleScRow (by decide)
  · exact stablecoinStore_invariants.2
      [("0xaa", sampleScRow)] ("0xAA") 99 (some 100) ("0xaa") sampleScRow (by decide)

/-! ## Retention sweeper (`src/lib/inngest/functions.ts`, lines 86–201)

`cleanupExpiredTransactions` computes a cutoff (`now − ttlDays` in seconds),
counts the expired rows (`timestamp` non-null and strictly below the cutoff),
and deletes them in batches: find up to 1000 matching rows, delete them by id,
stop as soon as a batch comes back shorter than the batch size.  Only the
fields the sweeper touches are modelled (`id` — the primary key, hence the
no-duplicate hypothesis — and `timestamp`).  The source's `while` loop is
given fuel `tbl.length + 1`, proved sufficient below (each full batch removes
1000 rows).  `Math.floor` on the millisecond quotient is `Int.fdiv`. -/

/-- The sweeper-relevant columns of a `transactions` row. -/
structure TxTimestampRow where
  id : Nat
  timestamp : Option Int
deriving DecidableEq, Repr

/-- The sweeper's `where` clause: `timestamp: { not: null, lt: cutoff }`. -/
def isExpired (cutoff : Int) (r : TxTimestampRow) : Bool :=
  match r.timestamp with
  | some t => decide (t < cutoff)
  | none => false

/-- `batchSize` (1000 rows per delete batch). -/
def cleanupBatchSize : Nat := 1000

/-- The sweeper's delete loop (`functions.ts`, lines 143–181): find up to
`batchSize` expired rows, delete them by id, accumulate the deleted count,
stop when a batch is shorter than the batch size. -/
def deleteExpiredLoop (cutoff : Int) : Nat → List TxTimestampRow → Nat → Nat × List TxTimestampRow
  | 0, tbl, total => (total, tbl)
  | fuel+1, tbl, total =>
    let transactionsToDelete := (tbl.filter (isExpired cutoff)).take cleanupBatchSize
    if transactionsToDelete.isEmpty then (total, tbl)
    else
      let ids := transactionsToDelete.map (fun r => r.id)
      let tbl2 := tbl.filter (fun r => !(ids.contains r.id))
      let deletedInBatch := tbl.length - tbl2.length
      if transactionsToDelete.length < cleanupBatchSize then (total + deletedInBatch, tbl2)
      else deleteExpiredLoop cutoff fuel tbl2 (total + deletedInBatch)

-- key injectivity: two rows of a nodup-id table with equal ids are equal
/-- Two rows of a duplicate-free table with the same id are the same row. -/
theorem row_inj {tbl : List TxTimestampRow}
    (hnd : (tbl.map (fun r => r.id)).Nodup) {x y : TxTimestampRow}
    (hx : x ∈ tbl) (hy : y ∈ tbl) (hxy : x.id = y.id) : x = y := by
  exact List.inj_on_of_nodup_map hnd hx hy hxy

-- membership via ids for nodup tables
/-- Deleting by the ids of a batch taken from a duplicate-free table hits
exactly the batch members. -/
theorem contains_ids_iff {tbl batch : List TxTimestampRow}
    (hnd : (tbl.map (fun r => r.id)).Nodup)
    (hsub : ∀ b ∈ batch, b ∈ tbl) {r : TxTimestampRow} (hr : r ∈ tbl) :
    ((batch.map (fun r => r.id)).contains r.id = true) ↔ r ∈ batch := by
  constructor
  · intro h
    have : r.id ∈ batch.map (fun r => r.id) := by
      simpa using h
    obtain ⟨b, hb, hbid⟩ := List.mem_map.mp this
    have : b = r := row_inj hnd (hsub b hb) hr hbid
    rwa [this] at hb
  · intro h
    have : r.id ∈ batch.map (fun r => r.id) := List.mem_map_of_mem _ h
    simpa using this

-- batch elements live in tbl and are expired
/-- A found batch member belongs to the table and is expired. -/
theorem batch_mem {tbl : List TxTimestampRow} {c : Int} {n : Nat} {b : TxTimestampRow}
    (hb : b ∈ (tbl.filter (isExpired c)).take n) : b ∈ tbl ∧ isExpired c b = true := by
  have hmem := List.mem_of_mem_take hb
  exact ⟨(List.mem_filter.mp hmem).1, (List.mem_filter.mp hmem).2⟩

-- removal by ids equals removal by batch membership, on nodup tables
/-- On a duplicate-free table, deletion by batch ids equals deletion by batch
membership. -/
theorem removal_by_ids {tbl batch : List TxTimestampRow}
    (hnd : (tbl.map (fun r => r.id)).Nodup)
    (hsub : ∀ b ∈ batch, b ∈ tbl) :
    tbl.filter (fun r => !((batch.map (fun r => r.id)).contains r.id))
      = tbl.filter (fun r => !(batch.contains r)) := by
  apply List.filter_congr
  intro r hr
  have hiff := contains_ids_iff hnd hsub hr
  by_cases hmem : r ∈ batch
  · have h1 : (batch.map (fun r => r.id)).contains r.id = true := hiff.mpr hmem
    have h2 : batch.contains r = true := by simpa using hmem
    rw [h1, h2]
  · have h1 : (batch.map (fun r => r.id)).contains r.id = false := by
      rw [Bool.eq_false_iff]
      intro hc
      exact hmem (hiff.mp hc)
    have h2 : batch.contains r = false := by
      rw [Bool.eq_false_iff]
      intro hc
      exact hmem (by simpa using hc)
    rw [h1, h2]

/-- Deleting expired rows does not disturb the non-expired rows. -/
theorem keep_filter_preserved {tbl batch : List TxTimestampRow} {c : Int}
    (hexp : ∀ b ∈ batch, isExpired c b = true) :
    (tbl.filter (fun r => !(batch.contains r))).filter (fun r => !(isExpired c r))
      = tbl.filter (fun r => !(isExpired c r)) := by
  rw [List.filter_filter]
  apply List.filter_congr
  intro r hr
  by_cases he : isExpired c r = true
  · simp [he]
  · have hmem : r ∉ batch := by
      intro hb
      exact he (hexp r hb)
    simp [he, hmem]

/-- Removing a prefix of a duplicate-free list by membership leaves its drop. -/
theorem filter_not_contains_take {α : Type} [DecidableEq α] (l : List α) (n : Nat)
    (h : l.Nodup) :
    l.filter (fun r => !((l.take n).contains r)) = l.drop n := by
  have key : ∀ (batch rest : List α), (batch ++ rest).Nodup →
      (batch ++ rest).filter (fun r => !(batch.contains r)) = rest := by
    intro batch rest hnd2
    rw [List.filter_append]
    have hdisj : batch.Disjoint rest := List.disjoint_of_nodup_append hnd2
    have h1 : batch.filter (fun r => !(batch.contains r)) = [] := by
      rw [List.filter_eq_nil_iff]
      intro b hb
      simp [hb]
    have h2 : rest.filter (fun r => !(batch.contains r)) = rest := by
      rw [List.filter_eq_self]
      intro r hrm
      have : r ∉ batch := fun hc => hdisj hc hrm
      simp [this]
    rw [h1, h2, List.nil_append]
  have hsplit := key (l.take n) (l.drop n) (by rw [List.take_append_drop]; exact h)
  rw [List.take_append_drop] at hsplit
  exact hsplit

/-- After deleting one batch, the remaining expired rows are the tail of the
original expired list. -/
theorem expired_after_removal {tbl : List TxTimestampRow} {c : Int}
    (hnd : (tbl.map (fun r => r.id)).Nodup) (n : Nat) :
    (tbl.filter (fun r => !(((tbl.filter (isExpired c)).take n).contains r))).filter (isExpired c)
      = (tbl.filter (isExpired c)).drop n := by
  have hsubl : List.Sublist ((tbl.filter (isExpired c)).map (fun r => r.id))
      (tbl.map (fun r => r.id)) :=
    List.Sublist.map _ (List.filter_sublist tbl)
  have hEnodup : (tbl.filter (isExpired c)).Nodup :=
    List.Nodup.of_map _ (List.Nodup.sublist hsubl hnd)
  have hcomm : (tbl.filter (fun r => !(((tbl.filter (isExpired c)).take n).contains r))).filter (isExpired c)
      = (tbl.filter (isExpired c)).filter (fun r => !(((tbl.filter (isExpired c)).take n).contains r)) := by
    rw [List.filter_filter, List.filter_filter]
    apply List.filter_congr
    intro r hr
    cases isExpired c r <;> cases ((tbl.filter (isExpired c)).take n).contains r <;> rfl
  rw [hcomm]
  exact filter_not_contains_take (tbl.filter (isExpired c)) n hEnodup

/-- With enough fuel, the delete loop removes exactly the expired rows. -/
theorem deleteExpiredLoop_eq_filter (c : Int) :
    ∀ (fuel : Nat) (tbl : List TxTimestampRow) (total : Nat),
    (tbl.map (fun r => r.id)).Nodup →
    (tbl.filter (isExpired c)).length ≤ cleanupBatchSize * fuel →
    (deleteExpiredLoop c fuel tbl total).2 = tbl.filter (fun r => !(isExpired c r)) := by
  intro fuel
  induction fuel with
  | zero =>
    intro tbl total hnd hlen
    simp only [Nat.mul_zero, Nat.le_zero, List.length_eq_zero] at hlen
    have hnoexp : ∀ r ∈ tbl, ¬ (isExpired c r = true) := by
      intro r hr hexp
      have : r ∈ tbl.filter (isExpired c) := List.mem_filter.mpr ⟨hr, hexp⟩
      rw [hlen] at this
      exact List.not_mem_nil r this
    simp only [deleteExpiredLoop]
    symm
    rw [List.filter_eq_self]
    intro r hr
    simp [hnoexp r hr]
  | succ fuel ih =>
    intro tbl total hnd hlen
    simp only [deleteExpiredLoop]
    by_cases hbe : ((tbl.filter (isExpired c)).take cleanupBatchSize).isEmpty = true
    · rw [if_pos hbe]
      have hE : tbl.filter (isExpired c) = [] := by
        cases hEc : tbl.filter (isExpired c) with
        | nil => rfl
        | cons x xs =>
          rw [hEc] at hbe
          simp [cleanupBatchSize, List.take] at hbe
      have hnoexp : ∀ r ∈ tbl, ¬ (isExpired c r = true) := by
        intro r hr hexp
        have : r ∈ tbl.filter (isExpired c) := List.mem_filter.mpr ⟨hr, hexp⟩
        rw [hE] at this
        exact List.not_mem_nil r this
      symm
      rw [List.filter_eq_self]
      intro r hr
      simp [hnoexp r hr]
    · rw [if_neg hbe]
      have hsub : ∀ b ∈ (tbl.filter (isExpired c)).take cleanupBatchSize, b ∈ tbl := by
        intro b hb
        exact (batch_mem hb).1
      have hids := removal_by_ids hnd hsub
      by_cases hlt : ((tbl.filter (isExpired c)).take cleanupBatchSize).length < cleanupBatchSize
      · rw [if_pos hlt]
        show tbl.filter (fun r =>
            !(((tbl.filter (isExpired c)).take cleanupBatchSize).map (fun r => r.id)).contains r.id)
          = tbl.filter (fun r => !(isExpired c r))
        rw [hids]
        have hEfull : (tbl.filter (isExpired c)).take cleanupBatchSize = tbl.filter (isExpired c) := by
          apply List.take_of_length_le
          rw [List.length_take] at hlt
          omega
        rw [hEfull]
        apply List.filter_congr
        intro r hr
        by_cases he : isExpired c r = true
        · have : r ∈ tbl.filter (isExpired c) := List.mem_filter.mpr ⟨hr, he⟩
          simp [he, this]
        · have : r ∉ tbl.filter (isExpired c) := by
            intro hc
            exact he (List.mem_filter.mp hc).2
          simp [he, this]
      · rw [if_neg hlt]
        rw [hids]
        have hnd2 : ((tbl.filter (fun r =>
            !(((tbl.filter (isExpired c)).take cleanupBatchSize).contains r))).map (fun r => r.id)).Nodup := by
          apply List.Nodup.sublist _ hnd
          exact List.Sublist.map _ (List.filter_sublist tbl)
        have hlen2 : ((tbl.filter (fun r =>
            !(((tbl.filter (isExpired c)).take cleanupBatchSize).contains r))).filter (isExpired c)).length
            ≤ cleanupBatchSize * fuel := by
          rw [expired_after_removal hnd]
          rw [List.length_drop]
          have hbl : ((tbl.filter (isExpired c)).take cleanupBatchSize).length = cleanupBatchSize := by
            rw [List.length_take] at hlt ⊢
            omega
          have hms : cleanupBatchSize * (fuel + 1) = cleanupBatchSize * fuel + cleanupBatchSize :=
            Nat.mul_succ cleanupBatchSize fuel
          rw [List.length_take] at hlt
          omega
        rw [ih _ _ hnd2 hlen2]
        exact keep_filter_preserved (fun b hb => (batch_mem hb).2)

/-- The sweeper's result value: `{success: false, reason: 'TTL disabled'}`
versus `{success: true, deletedCount}`. -/
inductive CleanupResult where
  | disabled
  | ok (deletedCount : Nat)
deriving DecidableEq, Repr

/-- The cutoff timestamp in seconds:
`BigInt(Math.floor((now - ttlDays*24*60*60*1000) / 1000))`. -/
def cleanupCutoff (ttlDays nowMs : Int) : Int :=
  Int.fdiv (nowMs - ttlDays * 24 * 60 * 60 * 1000) 1000

/-- `cleanupExpiredTransactions` (`functions.ts`, lines 95–201), with the
wall clock (`Date.now()`, milliseconds) and the table state explicit. -/
def cleanupExpiredTransactions (ttlDays nowMs : Int) (tbl : List TxTimestampRow) :
    CleanupResult × List TxTimestampRow :=
  if ttlDays ≤ 0 then (CleanupResult.disabled, tbl)
  else
    let cutoffTimestamp := cleanupCutoff ttlDays nowMs
    let countToDelete := (tbl.filter (isExpired cutoffTimestamp)).length
    if countToDelete = 0 then (CleanupResult.ok 0, tbl)
    else
      let r := deleteExpiredLoop cutoffTimestamp (tbl.length + 1) tbl 0
      (CleanupResult.ok r.1, r.2)

/-- C8: with `ttlDays > 0` the sweeper deletes exactly the rows whose
timestamp is non-null and strictly below the cutoff `now − ttlDays` (in
seconds), looping in batches of 1000 until a short batch; a row with a null
timestamp is never deleted for any TTL; a non-positive `ttlDays` deletes
nothing and returns the distinct disabled result, not the "nothing to
delete" success. -/
theorem cleanupExpired_correct (ttlDays nowMs : Int) (tbl : List TxTimestampRow)
    (hnd : (tbl.map (fun r => r.id)).Nodup) :
    (∀ r, isExpired (cleanupCutoff ttlDays nowMs) r = true ↔
      ∃ t, r.timestamp = some t ∧ t < cleanupCutoff ttlDays nowMs) ∧
    (0 < ttlDays →
      (cleanupExpiredTransactions ttlDays nowMs tbl).2
        = tbl.filter (fun r => !(isExpired (cleanupCutoff ttlDays nowMs) r)) ∧
      (∀ r ∈ tbl, r.timestamp = none →
        r ∈ (cleanupExpiredTransactions ttlDays nowMs tbl).2)) ∧
    (ttlDays ≤ 0 →
      (cleanupExpiredTransactions ttlDays nowMs tbl).2 = tbl ∧
      (cleanupExpiredTransactions ttlDays nowMs tbl).1 = CleanupResult.disabled ∧
      CleanupResult.disabled ≠ CleanupResult.ok 0) := by
  refine ⟨?_, ?_, ?_⟩
  · intro r
    unfold isExpired
    cases hts : r.timestamp with
    | none => simp
    | some t => simp
  · intro hpos
    have hne : ¬ (ttlDays ≤ 0) := by omega
    have hmain : (cleanupExpiredTransactions ttlDays nowMs tbl).2
        = tbl.filter (fun r => !(isExpired (cleanupCutoff ttlDays nowMs) r)) := by
      unfold cleanupExpiredTransactions
      rw [if_neg hne]
      by_cases hcnt : (tbl.filter (isExpired (cleanupCutoff ttlDays nowMs))).length = 0
      · rw [if_pos hcnt]
        have hE : tbl.filter (isExpired (cleanupCutoff ttlDays nowMs)) = [] :=
          List.length_eq_zero.mp hcnt
        show tbl = tbl.filter (fun r => !(isExpired (cleanupCutoff ttlDays nowMs) r))
        symm
        rw [List.filter_eq_self]
        intro r hr
        have : ¬ (isExpired (cleanupCutoff ttlDays nowMs) r = true) := by
          intro hexp
          have : r ∈ tbl.filter (isExpired (cleanupCutoff ttlDays nowMs)) :=
            List.mem_filter.mpr ⟨hr, hexp⟩
          rw [hE] at this
          exact List.not_mem_nil r this
        simp [this]
      · rw [if_neg hcnt]
        apply deleteExpiredLoop_eq_filter
        · exact hnd
        · have h1 : (tbl.filter (isExpired (cleanupCutoff ttlDays nowMs))).length ≤ tbl.length :=
            List.length_filter_le _ tbl
          have h2 : tbl.length ≤ cleanupBatchSize * (tbl.length + 1) := by
            unfold cleanupBatchSize
            omega
          omega
    refine ⟨hmain, ?_⟩
    intro r hr hts
    rw [hmain]
    apply List.mem_filter.mpr
    refine ⟨hr, ?_⟩
    simp [isExpired, hts]
  · intro hneg
    unfold cleanupExpiredTransactions
    rw [if_pos hneg]
    exact ⟨rfl, rfl, by intro h; exact CleanupResult.noConfusion h⟩

/-- Witness for C8, matching the spec's retention test with TTL = 3 days and
`now` = 10 days: the 6-day-old row is deleted, the 8-day-old row is retained,
the null-timestamp row is retained; with TTL = 0 nothing is deleted. -/
theorem cleanupExpired_correct_witness :
    (cleanupExpiredTransactions 3 864000000
        [⟨1, some 518400⟩, ⟨2, some 691200⟩, ⟨3, none⟩]).2
      = [⟨2, some 691200⟩, ⟨3, none⟩] ∧
    (cleanupExpiredTransactions 0 864000000
        [⟨1, some 518400⟩, ⟨2, some 691200⟩, ⟨3, none⟩]).2
      = [⟨1, some 518400⟩, ⟨2, some 691200⟩, ⟨3, none⟩] := by
  constructor
  · have h := (cleanupExpired_correct 3 864000000
      [⟨1, some 518400⟩, ⟨2, some 691200⟩, ⟨3, none⟩] (by decide)).2.1 (by decide)
    rw [h.1]
    decide
  · exact ((cleanupExpired_correct 0 864000000
      [⟨1, some 518400⟩, ⟨2, some 691200⟩, ⟨3, none⟩] (by decide)).2.2 (by decide)).1

/-! ## Idempotence of re-ingesting a block (C3)

Helper lemmas about re-upserting the same records into the transactions table
and re-running detection over the same candidates. -/

/-- `Settled tbl tx`: the table already holds record `tx` — its key is present
and every entry at the key carries exactly the row the upsert would write. -/
def Settled (tbl : TxTable) (tx : TransactionIngestionData) : Prop :=
  tbl.any (fun p => p.1 == tx.hash) = true ∧
  ∀ p ∈ tbl, p.1 = tx.hash → p.2 = rowOfRecord tx

/-- Upserting a settled record does not change the table. -/
theorem upsert_of_settled {tbl : TxTable} {tx : TransactionIngestionData}
    (h : Settled tbl tx) : upsertTransactionRow tbl tx = tbl := by
  unfold upsertTransactionRow
  rw [if_pos h.1]
  conv =>
    rhs
    rw [← List.map_id tbl]
  apply List.map_congr_left
  intro p hp
  by_cases hk : p.1 = tx.hash
  · rw [if_pos hk, ← h.2 p hp hk]
    rfl
  · rw [if_neg hk]
    rfl

/-- After upserting a record, it is settled. -/
theorem settled_after_upsert (tbl : TxTable) (tx : TransactionIngestionData) :
    Settled (upsertTransactionRow tbl tx) tx := by
  unfold upsertTransactionRow
  by_cases hk : tbl.any (fun p => p.1 == tx.hash) = true
  · rw [if_pos hk]
    constructor
    · obtain ⟨p, hp, hpk⟩ := List.any_eq_true.mp hk
      apply List.any_eq_true.mpr
      refine ⟨(p.1, rowOfRecord tx), ?_, hpk⟩
      apply List.mem_map.mpr
      refine ⟨p, hp, ?_⟩
      rw [if_pos (by simpa using hpk)]
    · intro p hp hpk
      obtain ⟨q, hq, hqe⟩ := List.mem_map.mp hp
      by_cases hqk : q.1 = tx.hash
      · rw [if_pos hqk] at hqe
        rw [← hqe]
      · rw [if_neg hqk] at hqe
        rw [← hqe] at hpk
        exact absurd hpk hqk
  · rw [if_neg hk]
    constructor
    · apply List.any_eq_true.mpr
      exact ⟨(tx.hash, rowOfRecord tx), by simp, by simp⟩
    · intro p hp hpk
      rcases List.mem_append.mp hp with hin | hnew
      · exfalso
        apply hk
        apply List.any_eq_true.mpr
        exact ⟨p, hin, by simpa using hpk⟩
      · have : p = (tx.hash, rowOfRecord tx) := by simpa using hnew
        rw [this]
  
/-- Upserting a record with a different hash keeps another record settled. -/
theorem settled_preserved {tbl : TxTable} {tx tx2 : TransactionIngestionData}
    (hne : tx2.hash ≠ tx.hash) (h : Settled tbl tx) :
    Settled (upsertTransactionRow tbl tx2) tx := by
  unfold upsertTransactionRow
  by_cases hk : tbl.any (fun p => p.1 == tx2.hash) = true
  · rw [if_pos hk]
    constructor
    · obtain ⟨p, hp, hpk⟩ := List.any_eq_true.mp h.1
      apply List.any_eq_true.mpr
      refine ⟨(if p.1 = tx2.hash then (p.1, rowOfRecord tx2) else p), ?_, ?_⟩
      · exact List.mem_map.mpr ⟨p, hp, rfl⟩
      · by_cases hq : p.1 = tx2.hash
        · rw [if_pos hq]; exact hpk
        · rw [if_neg hq]; exact hpk
    · intro p hp hpk
      obtain ⟨q, hq, hqe⟩ := List.mem_map.mp hp
      by_cases hqk : q.1 = tx2.hash
      · rw [if_pos hqk] at hqe
        rw [← hqe] at hpk
        simp only at hpk
        exact absurd (hqk ▸ hpk : tx2.hash = tx.hash) hne
      · rw [if_neg hqk] at hqe
        rw [← hqe] at hpk ⊢
        exact h.2 q hq hpk
  · rw [if_neg hk]
    constructor
    · apply List.any_eq_true.mpr
      obtain ⟨p, hp, hpk⟩ := List.any_eq_true.mp h.1
      exact ⟨p, List.mem_append_left _ hp, hpk⟩
    · intro p hp hpk
      rcases List.mem_append.mp hp with hin | hnew
      · exact h.2 p hin hpk
      · have : p = (tx2.hash, rowOfRecord tx2) := by simpa using hnew
        rw [this] at hpk
        exact absurd hpk hne

/-- A settled record stays settled through upserts of other hashes. -/
theorem settled_preserved_fold {tx : TransactionIngestionData} :
    ∀ (rest : List TransactionIngestionData) (tbl : TxTable),
    (∀ tx2 ∈ rest, tx2.hash ≠ tx.hash) → Settled tbl tx →
    Settled (rest.foldl upsertTransactionRow tbl) tx := by
  intro rest
  induction rest with
  | nil => intro tbl _ h; exact h
  | cons y ys ih =>
    intro tbl hne h
    simp only [List.foldl_cons]
    exact ih _ (fun tx2 h2 => hne tx2 (List.mem_cons_of_mem y h2))
      (settled_preserved (hne y (List.mem_cons_self y ys)) h)

/-- After folding a batch with duplicate-free hashes, every record is settled. -/
theorem settled_after_fold :
    ∀ (records : List TransactionIngestionData) (tbl : TxTable),
    (records.map (fun tx => tx.hash)).Nodup →
    ∀ tx ∈ records, Settled (records.foldl upsertTransactionRow tbl) tx := by
  intro records
  induction records with
  | nil => intro tbl _ tx htx; exact absurd htx (List.not_mem_nil tx)
  | cons r rest ih =>
    intro tbl hnd tx htx
    simp only [List.foldl_cons]
    rcases List.mem_cons.mp htx with rfl | hmem
    · apply settled_preserved_fold rest
      · intro tx2 h2 he
        apply (List.nodup_cons.mp hnd).1
        show tx.hash ∈ rest.map (fun w => w.hash)
        rw [← he]
        exact List.mem_map_of_mem (fun w => w.hash) h2
      · exact settled_after_upsert tbl tx
    · exact ih _ (List.nodup_cons.mp hnd).2 tx hmem

/-- Folding upserts over a table in which every batch record is already
settled is the identity. -/
theorem foldl_upsert_fixpoint :
    ∀ (records : List TransactionIngestionData) (tbl : TxTable),
    (∀ tx ∈ records, Settled tbl tx) →
    records.foldl upsertTransactionRow tbl = tbl := by
  intro records
  induction records with
  | nil => intro tbl _; rfl
  | cons r rest ih =>
    intro tbl hall
    simp only [List.foldl_cons]
    rw [upsert_of_settled (hall r (List.mem_cons_self r rest))]
    exact ih tbl (fun tx htx => hall tx (List.mem_cons_of_mem r htx))

/-- Re-upserting the same duplicate-free batch is the identity. -/
theorem foldl_upsert_idem (records : List TransactionIngestionData)
    (tbl : TxTable) (hnd : (records.map (fun tx => tx.hash)).Nodup) :
    records.foldl upsertTransactionRow (records.foldl upsertTransactionRow tbl)
      = records.foldl upsertTransactionRow tbl :=
  foldl_upsert_fixpoint records _ (settled_after_fold records tbl hnd)

/-- A lookup's success is membership of the key column. -/
theorem scFind?_isSome_iff_mem (tbl : StablecoinTable) (a : String) :
    (scFind? tbl a).isSome = true ↔ a ∈ tbl.map Prod.fst := by
  induction tbl with
  | nil => simp [scFind?]
  | cons p rest ih =>
    by_cases hp : p.1 = a
    · simp [scFind?, hp]
    · simp only [scFind?, if_neg hp, List.map_cons, List.mem_cons]
      rw [ih]
      constructor
      · intro h; exact Or.inr h
      · rintro (h | h)
        · exact absurd h.symm hp
        · exact h

/-- One detection step only ever appends to the table. -/
theorem checkAndIngestAddress_shape (o : ChainOracle) (tbl : StablecoinTable)
    (a : String) (bn : Int) (ts : Option Int) :
    ∃ ext, (checkAndIngestAddress o tbl a bn ts).2 = tbl ++ ext := by
  unfold checkAndIngestAddress
  by_cases h0 : jsToLowerCase a = zeroAddress
  · exact ⟨[], by simp [h0]⟩
  · by_cases h1 : isAlreadyKnown tbl (jsToLowerCase a) = true
    · exact ⟨[], by simp [h0, h1]⟩
    · by_cases h2 : isContract o (jsToLowerCase a) = true
      · by_cases h3 : isTIP20Token o (jsToLowerCase a) = true
        · unfold ingestStablecoin
          by_cases h4 : (scFind? tbl (jsToLowerCase (jsToLowerCase a))).isSome = true
          · exact ⟨[], by simp [h0, h1, h2, h3, h4]⟩
          · refine ⟨[(jsToLowerCase (jsToLowerCase a),
              newStablecoinRow bn ts)], ?_⟩
            simp [h0, h1, h2, h3, h4]
        · exact ⟨[], by simp [h0, h1, h2, h3]⟩
      · exact ⟨[], by simp [h0, h1, h2]⟩

/-- The candidate fold only ever appends to the table. -/
theorem detect_fold_shape (o : ChainOracle) (bn : Int) (ts : Option Int) :
    ∀ (addrs : List String) (n : Nat) (tbl : StablecoinTable),
    ∃ ext, (addrs.foldl (detectStep o bn ts) (n, tbl)).2 = tbl ++ ext := by
  intro addrs
  induction addrs with
  | nil => intro n tbl; exact ⟨[], by simp⟩
  | cons b rest ih =>
    intro n tbl
    simp only [List.foldl_cons]
    obtain ⟨ext1, hext1⟩ := checkAndIngestAddress_shape o tbl b bn ts
    obtain ⟨ext2, hext2⟩ := ih (n + (if (checkAndIngestAddress o tbl b bn ts).1 then 1 else 0))
      (checkAndIngestAddress o tbl b bn ts).2
    refine ⟨ext1 ++ ext2, ?_⟩
    show ((rest.foldl (detectStep o bn ts)
      ((detectStep o bn ts (n, tbl) b).1, (detectStep o bn ts (n, tbl) b).2))).2
      = tbl ++ (ext1 ++ ext2)
    have hstep : detectStep o bn ts (n, tbl) b
        = (n + (if (checkAndIngestAddress o tbl b bn ts).1 then 1 else 0),
           (checkAndIngestAddress o tbl b bn ts).2) := rfl
    rw [hstep]
    rw [hext1] at hext2 ⊢
    rw [hext2]
    rw [List.append_assoc]

/-- A candidate that is a detectable token (code and all three reads pass)
ends up in the table's key column after the fold, wherever it started. -/
theorem detect_fold_covers (o : ChainOracle) (bn : Int) (ts : Option Int) :
    ∀ (addrs : List String) (n : Nat) (tbl : StablecoinTable) (a : String),
    a ∈ addrs → jsToLowerCase a = a → a ≠ zeroAddress →
    isContract o a = true → isTIP20Token o a = true →
    a ∈ ((addrs.foldl (detectStep o bn ts) (n, tbl)).2).map Prod.fst := by
  intro addrs
  induction addrs with
  | nil => intro n tbl a ha; exact absurd ha (List.not_mem_nil a)
  | cons b rest ih =>
    intro n tbl a ha hlc h0 hc ht
    simp only [List.foldl_cons]
    rcases List.mem_cons.mp ha with rfl | hmem
    · -- the head is our candidate: after this step it is a key, and the rest
      -- of the fold only appends
      have hkey : a ∈ ((checkAndIngestAddress o tbl a bn ts).2).map Prod.fst := by
        unfold checkAndIngestAddress
        rw [hlc, if_neg h0]
        by_cases h1 : isAlreadyKnown tbl a = true
        · rw [if_pos h1]
          apply (scFind?_isSome_iff_mem tbl a).mp
          unfold isAlreadyKnown at h1
          rwa [hlc] at h1
        · rw [if_neg h1]
          have h4 : (scFind? tbl a).isSome = false := by
            have := Bool.eq_false_iff.mpr (fun hx => h1 hx)
            unfold isAlreadyKnown at this
            rwa [hlc] at this
          simp [hc, ht, ingestStablecoin, hlc, h4]
      obtain ⟨ext, hext⟩ := detect_fold_shape o bn ts rest
        (n + (if (checkAndIngestAddress o tbl a bn ts).1 then 1 else 0))
        (checkAndIngestAddress o tbl a bn ts).2
      have hstep : detectStep o bn ts (n, tbl) a
          = (n + (if (checkAndIngestAddress o tbl a bn ts).1 then 1 else 0),
             (checkAndIngestAddress o tbl a bn ts).2) := rfl
      rw [hstep, hext, List.map_append]
      exact List.mem_append_left _ hkey
    · exact ih _ _ a hmem hlc h0 hc ht

/-- A step on an already-settled candidate (known, or failing the contract or
token checks) leaves the table unchanged. -/
theorem checkAndIngestAddress_noop (o : ChainOracle) (tbl : StablecoinTable)
    (a : String) (bn : Int) (ts : Option Int) (hlc : jsToLowerCase a = a)
    (hcond : (scFind? tbl a).isSome = true ∨ isContract o a = false ∨
      isTIP20Token o a = false) :
    (checkAndIngestAddress o tbl a bn ts).2 = tbl := by
  unfold checkAndIngestAddress
  rw [hlc]
  by_cases h0 : a = zeroAddress
  · rw [if_pos h0]
  · rw [if_neg h0]
    by_cases h1 : isAlreadyKnown tbl a = true
    · rw [if_pos h1]
    · rw [if_neg h1]
      rcases hcond with hk | hc | ht
      · exfalso
        apply h1
        unfold isAlreadyKnown
        rwa [hlc]
      · rw [hc]
        simp
      · by_cases hc2 : isContract o a = true
        · rw [hc2, ht]
          simp
        · rw [Bool.eq_false_iff.mpr hc2]
          simp

/-- The candidate fold over settled candidates leaves the table unchanged. -/
theorem detect_fold_noop (o : ChainOracle) (bn : Int) (ts : Option Int) :
    ∀ (addrs : List String) (n : Nat) (tbl : StablecoinTable),
    (∀ a ∈ addrs, jsToLowerCase a = a ∧
      ((scFind? tbl a).isSome = true ∨ isContract o a = false ∨
        isTIP20Token o a = false)) →
    (addrs.foldl (detectStep o bn ts) (n, tbl)).2 = tbl := by
  intro addrs
  induction addrs with
  | nil => intro n tbl _; rfl
  | cons b rest ih =>
    intro n tbl hall
    simp only [List.foldl_cons]
    have hb := hall b (List.mem_cons_self b rest)
    have hnoop := checkAndIngestAddress_noop o tbl b bn ts hb.1 hb.2
    have hstep : detectStep o bn ts (n, tbl) b
        = (n + (if (checkAndIngestAddress o tbl b bn ts).1 then 1 else 0), tbl) := by
      show (n + (if (checkAndIngestAddress o tbl b bn ts).1 then 1 else 0),
        (checkAndIngestAddress o tbl b bn ts).2)
        = (n + (if (checkAndIngestAddress o tbl b bn ts).1 then 1 else 0), tbl)
      rw [hnoop]
    rw [hstep]
    exact ih _ tbl (fun a ha => hall a (List.mem_cons_of_mem b ha))

/-- Members of the deduplicated list come from the original list. -/
theorem dedupFirstAux_subset :
    ∀ (seen l : List String) (a : String), a ∈ dedupFirstAux seen l → a ∈ l := by
  intro seen l
  induction l generalizing seen with
  | nil => intro a ha; exact absurd ha (List.not_mem_nil a)
  | cons b rest ih =>
    intro a ha
    simp only [dedupFirstAux] at ha
    by_cases hb : seen.contains b
    · rw [if_pos hb] at ha
      exact List.mem_cons_of_mem b (ih _ a ha)
    · rw [if_neg hb] at ha
      rcases List.mem_cons.mp ha with rfl | hmem
      · exact List.mem_cons_self a rest
      · exact List.mem_cons_of_mem b (ih _ a hmem)

/-- Every deduplicated lowercased candidate is lowercase-fixed. -/
theorem uniqueAddresses_lc (addresses : List String) (a : String)
    (ha : a ∈ (dedupFirst (addresses.map jsToLowerCase)).filter
      (fun x => x ≠ zeroAddress)) :
    jsToLowerCase a = a ∧ a ≠ zeroAddress := by
  have hmem := List.mem_filter.mp ha
  have h1 : a ∈ addresses.map jsToLowerCase :=
    dedupFirstAux_subset [] _ a hmem.1
  obtain ⟨b, -, rfl⟩ := List.mem_map.mp h1
  refine ⟨jsToLowerCase_idem b, ?_⟩
  have := hmem.2
  simpa using this

/-- One stat update rewrites a row in place: the key column is unchanged. -/
theorem applyStatUpdate_keys {tbl t : StablecoinTable} {u : StatUpdate}
    (h : applyStatUpdate tbl u = some t) :
    t.map Prod.fst = tbl.map Prod.fst := by
  unfold applyStatUpdate at h
  by_cases hk : (scFind? tbl u.address).isSome = true
  · rw [if_pos hk, Option.some.injEq] at h
    subst h
    rw [List.map_map]
    apply List.map_congr_left
    intro p hp
    show (if p.1 = u.address then (p.1, statRowUpdate u p.2) else p).1 = p.1
    by_cases hpk : p.1 = u.address
    · rw [if_pos hpk]
    · rw [if_neg hpk]
  · rw [if_neg hk] at h
    exact absurd h (by simp)

/-- The `$transaction` of stat updates preserves the key column. -/
theorem runStatUpdates_keys :
    ∀ (us : List StatUpdate) (tbl t : StablecoinTable),
    runStatUpdates tbl us = some t → t.map Prod.fst = tbl.map Prod.fst := by
  intro us
  induction us with
  | nil =>
    intro tbl t h
    simp only [runStatUpdates, Option.some.injEq] at h
    rw [h]
  | cons u rest ih =>
    intro tbl t h
    simp only [runStatUpdates] at h
    cases happ : applyStatUpdate tbl u with
    | none => rw [happ] at h; exact absurd h (by simp)
    | some t1 =>
      rw [happ] at h
      rw [ih t1 t h, applyStatUpdate_keys happ]

/-- `updateStablecoinStats` never adds or removes a stablecoin row, whether it
commits or rolls back. -/
theorem updateStablecoinStats_keys (tbl : StablecoinTable)
    (stats : BlockStablecoinStats) (bn : Int) :
    (txnResult tbl (updateStablecoinStats tbl stats bn)).map Prod.fst
      = tbl.map Prod.fst := by
  unfold updateStablecoinStats
  by_cases hemp : stats.isEmpty
  · rw [if_pos hemp]
    rfl
  · rw [if_neg hemp]
    cases hrun : runStatUpdates tbl ((stats.map Prod.snd).map (mkStatUpdate tbl bn)) with
    | none =>
      simp only [hrun]
      rfl
    | some t =>
      simp only [hrun]
      exact runStatUpdates_keys _ tbl t hrun

/-! ## The block ingestion orchestrator (`src/lib/ingestion/block-ingestion.ts`)

The chain data source is a deterministic structure: the block (with its
transaction list, whose entries are either bare hash strings or full objects —
both reduced to their hash by the extraction loop), per-hash transaction and
receipt results (`getTransactionReceipt(...).catch(() => null)` modelled by
`Option`), and the detector's oracle.  The database is the pair of the two
tables.  The pipeline stages are named (`blockRecords`, `scDetectStage`,
`scStatsStage`) to mirror the source's step comments. -/

/-- An entry of `block.transactions`: a bare hash string or a full transaction
object (of which only the hash is read by the extraction loop). -/
inductive BlockTxEntry where
  | hashStr (h : String)
  | txObj (h : String)
deriving DecidableEq, Repr

/-- The hash the extraction loop (`block-ingestion.ts`, lines 76–87) pushes. -/
def entryHash : BlockTxEntry → String
  | BlockTxEntry.hashStr h => h
  | BlockTxEntry.txObj h => h

/-- The viem block header fields the orchestrator reads. -/
structure ChainBlock where
  number : Option Int
  hash : Option String
  timestamp : Option Int
  transactions : List BlockTxEntry

/-- The deterministic chain data consumed by one `ingestBlock` call. -/
structure ChainData where
  block : ChainBlock
  getTransaction : String → RawTx
  getTransactionReceipt : String → Option TransactionReceipt
  oracle : ChainOracle

/-- The two tables of the persistence layer. -/
structure Db where
  transactions : TxTable
  stablecoins : StablecoinTable
deriving DecidableEq, Repr

/-- The normalized records of the block: transactions and receipts fetched per
hash, zipped through `transformViemTransaction` with
`block.timestamp || undefined`. -/
def blockRecords (chain : ChainData) : List TransactionIngestionData :=
  List.zipWith
    (fun tx receipt =>
      transformViemTransaction tx receipt (jsOrNullInt chain.block.timestamp))
    ((chain.block.transactions.map entryHash).map chain.getTransaction)
    ((chain.block.transactions.map entryHash).map chain.getTransactionReceipt)

/-- `if (x) list.push(x)` for an optional string field. -/
def optTruthyToList (v : Option String) : List String :=
  match v with
  | some s => if s = "" then [] else [s]
  | none => []

/-- The candidate contract addresses of the batch
(`block-ingestion.ts`, lines 125–139): each record's `contractAddress` (when
truthy) followed by its `to` address (when truthy), in batch order. -/
def blockCandidates (chain : ChainData) : List String :=
  (blockRecords chain).foldl
    (fun acc tx => acc ++ optTruthyToList tx.contractAddress ++ optTruthyToList tx.toAddr)
    []

/-- The non-null receipts of the batch (`receipts.filter(r => r !== null)`). -/
def blockValidReceipts (chain : ChainData) : List (Option TransactionReceipt) :=
  ((chain.block.transactions.map entryHash).map chain.getTransactionReceipt).filter
    (fun r => r.isSome)

/-- The stablecoin-detection stage (`block-ingestion.ts`, lines 145–157): run
detection over the candidates when there are any; a detection failure is
caught and leaves the table as is (the modelled detection is total, its
individual chain calls being fault-tolerant). -/
def scDetectStage (chain : ChainData) (sc : StablecoinTable) : StablecoinTable :=
  if (blockCandidates chain).isEmpty then sc
  else
    (checkAndIngestAddresses chain.oracle sc (blockCandidates chain)
      (jsOrInt chain.block.number 0) (jsOrNullInt chain.block.timestamp)).2

/-- The statistics stage (`block-ingestion.ts`, lines 161–172): aggregate the
valid receipts against the stablecoins known *now*, update when non-empty; an
update failure is caught, the rolled-back table staying as is. -/
def scStatsStage (chain : ChainData) (sc : StablecoinTable) : StablecoinTable :=
  if (blockValidReceipts chain).isEmpty then sc
  else
    let stats := calculateStablecoinStats (sc.map Prod.fst) (blockValidReceipts chain)
    if stats.isEmpty then sc
    else txnResult sc (updateStablecoinStats sc stats (jsOrInt chain.block.number 0))

/-- `ingestBlock` (`src/lib/ingestion/block-ingestion.ts`, lines 36–181), as a
database transformer: the identifier parsing and summary construction are
modelled separately (`ingestBlockFetchAction`); this is the pipeline from the
fetched block onward.  A thrown error anywhere leaves the returned state as
the function left it: the transaction-batch failure rolls back and aborts
before the soft stages, whose own failures are caught. -/
def ingestBlockDb (chain : ChainData) (fail : TransactionIngestionData → Bool)
    (db : Db) : Db :=
  if (chain.block.transactions.map entryHash).isEmpty then db
  else
    match ingestTransactions fail db.transactions (blockRecords chain) with
    | Except.error _ => db
    | Except.ok txTbl =>
      { transactions := txTbl
        stablecoins := scStatsStage chain (scDetectStage chain db.stablecoins) }

/-- Zipping two maps over the same list is one map. -/
theorem zipWith_map_map {α β γ δ : Type} (f : β → γ → δ) (g : α → β) (r : α → γ) :
    ∀ (l : List α), List.zipWith f (l.map g) (l.map r) = l.map (fun x => f (g x) (r x)) := by
  intro l
  induction l with
  | nil => rfl
  | cons a as ih => simp only [List.map_cons, List.zipWith_cons_cons, ih]

/-- The statistics stage never adds or removes a stablecoin row. -/
theorem scStatsStage_keys (chain : ChainData) (sc : StablecoinTable) :
    (scStatsStage chain sc).map Prod.fst = sc.map Prod.fst := by
  unfold scStatsStage
  by_cases h1 : (blockValidReceipts chain).isEmpty
  · rw [if_pos h1]
  · rw [if_neg h1]
    by_cases h2 : (calculateStablecoinStats (sc.map Prod.fst) (blockValidReceipts chain)).isEmpty
    · simp only [h2, if_true]
    · simp only [h2, Bool.false_eq_true, if_false]
      exact updateStablecoinStats_keys sc _ _

/-- The records of a block carry the block's transaction hashes. -/
theorem blockRecords_hashes (chain : ChainData)
    (hhash : ∀ h, (chain.getTransaction h).hash = h) :
    (blockRecords chain).map (fun tx => tx.hash)
      = chain.block.transactions.map entryHash := by
  unfold blockRecords
  rw [zipWith_map_map, List.map_map]
  conv =>
    rhs
    rw [← List.map_id (chain.block.transactions.map entryHash)]
  apply List.map_congr_left
  intro h hmem
  show (transformViemTransaction (chain.getTransaction h)
    (chain.getTransactionReceipt h) (jsOrNullInt chain.block.timestamp)).hash = h
  show (chain.getTransaction h).hash = h
  exact hhash h

/-- C3: re-running `ingestBlock` on the same block with the same chain data is
idempotent on the stores: the transactions table is unchanged by the second
call (the upserts keyed on the unique hash rewrite each row with the same
values), and no stablecoin row is created or dropped (the second detection
pass finds every detectable candidate already recorded and inserts nothing;
the statistics stage touches only counters of existing rows). -/
theorem ingestBlock_idempotent (chain : ChainData)
    (fail : TransactionIngestionData → Bool) (db : Db)
    (hhash : ∀ h, (chain.getTransaction h).hash = h)
    (hnd : (chain.block.transactions.map entryHash).Nodup) :
    (ingestBlockDb chain fail (ingestBlockDb chain fail db)).transactions
      = (ingestBlockDb chain fail db).transactions ∧
    ((ingestBlockDb chain fail (ingestBlockDb chain fail db)).stablecoins).map Prod.fst
      = ((ingestBlockDb chain fail db).stablecoins).map Prod.fst := by
  have hndrec : ((blockRecords chain).map (fun tx => tx.hash)).Nodup := by
    rw [blockRecords_hashes chain hhash]
    exact hnd
  by_cases hempty : (chain.block.transactions.map entryHash).isEmpty = true
  · have h1 : ingestBlockDb chain fail db = db := by
      unfold ingestBlockDb
      rw [if_pos hempty]
    rw [h1, h1]
    exact ⟨rfl, rfl⟩
  · by_cases hfail : ∀ tx ∈ blockRecords chain, fail tx = false
    · -- every upsert succeeds: the interesting case
      have hok1 : ingestTransactions fail db.transactions (blockRecords chain)
          = Except.ok ((blockRecords chain).foldl upsertTransactionRow db.transactions) := by
        unfold ingestTransactions
        rw [runUpserts_ok fail _ _ hfail]
      have hdb1 : ingestBlockDb chain fail db
          = { transactions := (blockRecords chain).foldl upsertTransactionRow db.transactions
              stablecoins := scStatsStage chain (scDetectStage chain db.stablecoins) } := by
        unfold ingestBlockDb
        rw [if_neg hempty]
        simp only [hok1]
      have hok2 : ingestTransactions fail
          ((blockRecords chain).foldl upsertTransactionRow db.transactions)
          (blockRecords chain)
          = Except.ok ((blockRecords chain).foldl upsertTransactionRow db.transactions) := by
        unfold ingestTransactions
        rw [runUpserts_ok fail _ _ hfail, foldl_upsert_idem _ _ hndrec]
      have hdb2 : ingestBlockDb chain fail
          { transactions := (blockRecords chain).foldl upsertTransactionRow db.transactions
            stablecoins := scStatsStage chain (scDetectStage chain db.stablecoins) }
          = { transactions := (blockRecords chain).foldl upsertTransactionRow db.transactions
              stablecoins := scStatsStage chain (scDetectStage chain
                (scStatsStage chain (scDetectStage chain db.stablecoins))) } := by
        unfold ingestBlockDb
        rw [if_neg hempty]
        simp only [hok2]
      rw [hdb1, hdb2]
      refine ⟨rfl, ?_⟩
      -- the second detection pass is a no-op, and the stats stage preserves keys
      have hdetect2 : scDetectStage chain
          (scStatsStage chain (scDetectStage chain db.stablecoins))
          = scStatsStage chain (scDetectStage chain db.stablecoins) := by
        unfold scDetectStage
        by_cases hcand : (blockCandidates chain).isEmpty
        · rw [if_pos hcand, if_pos hcand]
        · rw [if_neg hcand, if_neg hcand]
          apply detect_fold_noop
          intro a ha
          obtain ⟨hlc, h0⟩ := uniqueAddresses_lc (blockCandidates chain) a ha
          refine ⟨hlc, ?_⟩
          by_cases hdet : isContract chain.oracle a = true ∧ isTIP20Token chain.oracle a = true
          · left
            apply (scFind?_isSome_iff_mem _ a).mpr
            rw [scStatsStage_keys]
            exact detect_fold_covers chain.oracle _ _ _ 0 db.stablecoins a ha hlc h0
              hdet.1 hdet.2
          · right
            rcases Decidable.not_and_iff_or_not.mp hdet with hc | ht
            · exact Or.inl (Bool.eq_false_iff.mpr hc)
            · exact Or.inr (Bool.eq_false_iff.mpr ht)
      rw [hdetect2]
      rw [scStatsStage_keys]
    · -- some upsert fails: both calls roll back and leave the state unchanged
      have hex : ∃ tx ∈ blockRecords chain, fail tx = true := by
        push_neg at hfail
        obtain ⟨tx, htx, hne⟩ := hfail
        exact ⟨tx, htx, Bool.ne_false_iff.mp hne⟩
      have herr : ∀ t : TxTable, ingestTransactions fail t (blockRecords chain)
          = Except.error () := by
        intro t
        unfold ingestTransactions
        rw [runUpserts_err fail _ _ hex]
      have h1 : ingestBlockDb chain fail db = db := by
        unfold ingestBlockDb
        rw [if_neg hempty]
        simp only [herr]
      rw [h1, h1]
      exact ⟨rfl, rfl⟩

/-- A one-transaction chain for the C3 witness: the transaction calls a
contract that passes all detection checks. -/
def sampleChain : ChainData :=
  { block :=
      { number := some 5
        hash := some ("0xb")
        timestamp := some 99
        transactions := [BlockTxEntry.txObj ("0xt1")] }
    getTransaction := fun h =>
      { hash := h, sender := "0xs", toAddr := some ("0xAB"), value := some 1,
        input := some ("0x"), nonce := 0, gas := 1, gasPrice := some 1 }
    getTransactionReceipt := fun _ => some (mkStatsReceipt none none none none)
    oracle :=
      { getCode := fun _ => some ("0x606060")
        decimals := fun _ => some 6
        symbol := fun _ => some ("PUSD")
        totalSupply := fun _ => some 100 } }

/-- Witness for C3: ingesting the sample block twice from an empty database
leaves the transactions table of the first run unchanged and adds no
stablecoin row. -/
theorem ingestBlock_idempotent_witness :
    (ingestBlockDb sampleChain (fun _ => false)
        (ingestBlockDb sampleChain (fun _ => false) ⟨[], []⟩)).transactions
      = (ingestBlockDb sampleChain (fun _ => false) ⟨[], []⟩).transactions ∧
    ((ingestBlockDb sampleChain (fun _ => false)
        (ingestBlockDb sampleChain (fun _ => false) ⟨[], []⟩)).stablecoins).map Prod.fst
      = ((ingestBlockDb sampleChain (fun _ => false) ⟨[], []⟩).stablecoins).map Prod.fst :=
  ingestBlock_idempotent sampleChain (fun _ => false) ⟨[], []⟩
    (fun _ => rfl) (by decide)
